import Mathlib

/-!
Shallow embedding of the memory reconciliation engine of
`src/langmem/knowledge/extraction.py` (classes `MemoryEnricher` and
`MemoryStoreEnricher`), together with theorems settling the claims about it.

Modelling conventions:
* Python dicts are association lists with Python's insertion-order
  semantics: assigning to an existing key overwrites the value in place,
  assigning to a fresh key appends at the end (`dinsert`), `pop` removes
  the key (`dpop`), and lookup returns the first (unique) binding (`dget?`).
* A pydantic `BaseModel` value is a `PModel`: its `__repr_name__()` is
  `reprName`, `getattr(m, "json_doc_id", None)` is `jsonDocId`, and
  `model_dump(mode="json")` is `dump` (payload contents are opaque strings).
* Relevance scores are rationals (`Option ℚ`), `None` treated as `⊥` when
  sorting, matching `float("-inf")`.
* The uuid5-based `_stable_id` derivation is an opaque function parameter
  `stableId : List String → String → Id`; the uuid4 fresh-id generator of
  `_prepare_existing` is an opaque supply `fresh : Nat → Id`.
* The extractor collaborator is out of scope (§6 of the spec): each phase's
  extractor responses `[(json_doc_id-or-fresh-uuid, content)]` are inputs.
-/

namespace Langmem

abbrev Id := String
abbrev Kind := String

/-- A pydantic model value as seen by `_apply_enricher_output`:
`reprName` is `__repr_name__()`, `jsonDocId` is
`getattr(model_data, "json_doc_id", None)`, `dump` is
`model_dump(mode="json")`. -/
structure PModel where
  reprName : String
  jsonDocId : Option Id
  dump : String
deriving DecidableEq, Repr

/-- The content slot of an `ExtractedMemory`: either a `BaseModel` instance
or raw (non-`BaseModel`) data such as a plain JSON dict. -/
inductive Content where
  | model (m : PModel)
  | raw (data : String)
deriving DecidableEq, Repr

/-- A `(sid, kind, content)` tuple as threaded through the reconciliation
pipeline (`store_based` / `ephemeral` entries). -/
abbrev Triple := Id × Kind × String

/-- A `SearchItem` as consumed by `_sort_results`: namespace, key, the
stored value's `kind` and `content`, and an optional relevance score. -/
structure SearchItem where
  ns : List String
  key : String
  kind : Kind
  content : String
  score : Option ℚ
deriving DecidableEq, Repr

/-- A pending `store.aput(namespace=..., key=..., value={kind, content})`. -/
structure Put where
  ns : List String
  key : String
  kind : Kind
  content : String
deriving DecidableEq, Repr

/-! ### Python-dict semantics on association lists -/

variable {α β : Type _} [DecidableEq α]

/-- Dict lookup: first binding of the key. -/
def dget? : List (α × β) → α → Option β
  | [], _ => none
  | p :: ps, k => if p.1 = k then some p.2 else dget? ps k

/-- Dict assignment `d[k] = v`: overwrite in place if the key is present,
else append at the end (Python insertion order). -/
def dinsert (l : List (α × β)) (k : α) (v : β) : List (α × β) :=
  if (dget? l k).isSome then l.map (fun p => if p.1 = k then (k, v) else p)
  else l ++ [(k, v)]

/-- Dict removal `d.pop(k, None)`. -/
def dpop (l : List (α × β)) (k : α) : List (α × β) :=
  l.filter (fun p => p.1 ≠ k)

/-- The keys of a dict, in insertion order. -/
def dkeys (l : List (α × β)) : List α := l.map Prod.fst

/-! ### The record merge engine: `MemoryStoreEnricher._apply_enricher_output` -/

/-- `store_dict = {sid: (sid, kind, content) for (sid, kind, content) in store_based}`
(dict comprehension: sequential insertion). -/
def toDict (l : List Triple) : List (Id × Triple) :=
  l.foldl (fun d t => dinsert d t.1 t) []

/-- One iteration of the `for extracted in enricher_output` loop of
`_apply_enricher_output`, acting on `(store_dict, ephemeral_dict, removed_ids)`.
The `RemoveDoc` branch mirrors the source exactly: the id is appended to
`removed_ids` only when it is truthy (non-empty) and a key of `store_map`,
and it is popped from both dicts unconditionally. -/
def applyStep (store_map : List (Id × SearchItem))
    (st : List (Id × Triple) × List (Id × Triple) × List Id)
    (extracted : Id × Content) :
    List (Id × Triple) × List (Id × Triple) × List Id :=
  let store_dict := st.1
  let ephemeral_dict := st.2.1
  let removed_ids := st.2.2
  let stable_id := extracted.1
  match extracted.2 with
  | Content.model m =>
    if m.reprName = "RemoveDoc" then
      match m.jsonDocId with
      | some removal_id =>
        let removed_ids :=
          if removal_id ≠ "" ∧ (dget? store_map removal_id).isSome then
            removed_ids ++ [removal_id]
          else removed_ids
        (dpop store_dict removal_id, dpop ephemeral_dict removal_id, removed_ids)
      | none => (store_dict, ephemeral_dict, removed_ids)
    else
      let new_content := m.dump
      let new_kind := m.reprName
      if (dget? store_dict stable_id).isSome then
        (dinsert store_dict stable_id (stable_id, new_kind, new_content),
          ephemeral_dict, removed_ids)
      else
        (store_dict,
          dinsert ephemeral_dict stable_id (stable_id, new_kind, new_content),
          removed_ids)
  | Content.raw data =>
    let new_kind := ((dget? st.1 stable_id).getD (stable_id, "Memory", "")).2.1
    let new_content := data
    if (dget? store_dict stable_id).isSome then
      (dinsert store_dict stable_id (stable_id, new_kind, new_content),
        ephemeral_dict, removed_ids)
    else
      (store_dict,
        dinsert ephemeral_dict stable_id (stable_id, new_kind, new_content),
        removed_ids)

/-- `MemoryStoreEnricher._apply_enricher_output`: fold the extracted
operations over the two working dicts, then return the updated
`store_based` list, `ephemeral` list and the removed ids of this call. -/
def applyEnricherOutput (enricher_output : List (Id × Content))
    (store_based : List Triple) (store_map : List (Id × SearchItem))
    (ephemeral : List Triple) : List Triple × List Triple × List Id :=
  let st := enricher_output.foldl (applyStep store_map)
    (toDict store_based, toDict ephemeral, [])
  (st.1.map Prod.snd, st.2.1.map Prod.snd, st.2.2)

/-! ### `MemoryEnricher` result assembly (lines 238–246):
the extractor responses come first, then every prepared-existing memory whose
id no response used is appended unchanged. -/

/-- The `for mem_tuple in prepared_existing` merge loop of
`MemoryEnricher.ainvoke`/`invoke`: append `(mem_id, mem)` for every existing
memory whose id does not already occur in the (growing) results list.  In the
store-enricher pipeline the existing values are the plain content payloads of
the `(sid, kind, content)` tuples, i.e. non-`BaseModel` data. -/
def mergeUnreferenced (results : List (Id × Content))
    (prepared_existing : List Triple) : List (Id × Content) :=
  prepared_existing.foldl
    (fun rs t => if rs.any (fun r => r.1 = t.1) then rs else rs ++ [(t.1, Content.raw t.2.2)])
    results

/-! ### The search aggregator: `MemoryStoreEnricher._sort_results` -/

/-- The sorting key: `it.score if it.score is not None else float("-inf")`,
idealized over the rationals with `⊥` for the missing score. -/
def scoreVal (it : SearchItem) : WithBot ℚ :=
  match it.score with
  | some q => (q : WithBot ℚ)
  | none => ⊥

/-- The `search_results` dict of `_sort_results`: all result lists merged
into one dict keyed by `(tuple(item.namespace), item.key)`. -/
def dedupByNsKey (search_results_lists : List (List SearchItem)) :
    List ((List String × String) × SearchItem) :=
  search_results_lists.foldl
    (fun d results => results.foldl (fun d item => dinsert d (item.ns, item.key) item) d)
    []

/-- `sorted(search_results.values(), key=..., reverse=True)[:query_limit]`:
a stable descending sort by score (missing score lowest), truncated.
Python's `sorted` is a stable sort; a stable sort of a list under a fixed
total preorder is unique, so the stable `List.insertionSort` (which keeps
the original relative order of equal keys) computes exactly the same list. -/
def sortedTruncated (search_results_lists : List (List SearchItem))
    (query_limit : Nat) : List SearchItem :=
  (((dedupByNsKey search_results_lists).map Prod.snd).insertionSort
    (fun a b => scoreVal b ≤ scoreVal a)).take query_limit

/-- `MemoryStoreEnricher._sort_results`: dedupe, sort, truncate, then build
the dict `{_stable_id(item): item for item in sorted_results}`. -/
def sortResults (search_results_lists : List (List SearchItem))
    (query_limit : Nat) (stableId : List String → String → Id) :
    List (Id × SearchItem) :=
  (sortedTruncated search_results_lists query_limit).foldl
    (fun d item => dinsert d (stableId item.ns item.key) item) []

/-! ### The diff and persistence planner (final loops of `ainvoke`/`invoke`) -/

/-- The body of the `for sid, kind, content in final_mem` loop as a partial
put: `none` when the record is skipped (retired id, or unchanged store-backed
value), otherwise the put the loop appends. -/
def putFor (store_map : List (Id × SearchItem)) (removed_ids : List Id)
    (target_ns : List String) (t : Triple) : Option Put :=
  if t.1 ∈ removed_ids then none
  else
    match dget? store_map t.1 with
    | some old_art =>
      if old_art.kind ≠ t.2.1 ∨ old_art.content ≠ t.2.2 then
        some ⟨old_art.ns, old_art.key, t.2.1, t.2.2⟩
      else none
    | none => some ⟨target_ns, t.1, t.2.1, t.2.2⟩

/-- The `final_puts` accumulation loop, transcribed as a fold. -/
def computePuts (final_mem : List Triple) (removed_ids : List Id)
    (store_map : List (Id × SearchItem)) (target_ns : List String) : List Put :=
  final_mem.foldl
    (fun acc t =>
      if t.1 ∈ removed_ids then acc
      else
        match dget? store_map t.1 with
        | some old_art =>
          if old_art.kind ≠ t.2.1 ∨ old_art.content ≠ t.2.2 then
            acc ++ [⟨old_art.ns, old_art.key, t.2.1, t.2.2⟩]
          else acc
        | none => acc ++ [⟨target_ns, t.1, t.2.1, t.2.2⟩])
    []

/-- The `final_deletes` accumulation loop (`for sid in removed_ids: if sid in
store_map`). -/
def computeDeletes (removed_ids : List Id)
    (store_map : List (Id × SearchItem)) : List (List String × String) :=
  removed_ids.foldl
    (fun acc sid =>
      match dget? store_map sid with
      | some art => acc ++ [(art.ns, art.key)]
      | none => acc)
    []

/-- `removed_ids.update(removed)` where `removed_ids` is a Python set,
modelled as duplicate-free insertion-ordered accumulation (only membership
is ever observed). -/
def sunion (s : List Id) (new_ids : List Id) : List Id :=
  new_ids.foldl (fun acc x => if x ∈ acc then acc else acc ++ [x]) s

/-- Everything a reconciliation run computes, before the final store I/O:
the search snapshot, the final record sets, the retired ids, and the
persistence plan.  The run returns `puts`. -/
structure RunResult where
  storeMap : List (Id × SearchItem)
  storeBased : List Triple
  ephemeral : List Triple
  removedIds : List Id
  puts : List Put
  deletes : List (List String × String)
deriving DecidableEq, Repr

/-- One refinement phase of `ainvoke` (the body of `for phase in
self.phases`): the extractor responses of the phase are merged with the
pass-through of `store_based + ephemeral`, applied through the merge engine,
and the removed ids accumulated into the run's set. -/
def phaseFold (store_map : List (Id × SearchItem))
    (acc : List Triple × List Triple × List Id)
    (resp : List (Id × Content)) : List Triple × List Triple × List Id :=
  let phase_enriched := mergeUnreferenced resp (acc.1 ++ acc.2.1)
  let s := applyEnricherOutput phase_enriched acc.1 store_map acc.2.1
  (s.1, s.2.1, sunion acc.2.2 s.2.2)

/-- `MemoryStoreEnricher.ainvoke`, from the point where the store search
results and the extractor responses (one list for the primary enrichment,
one per configured phase) are in hand.  Network and store I/O are at the
boundary: the function returns the `final_puts` list together with all
intermediate state. -/
def ainvokeRun (stableId : List String → String → Id) (query_limit : Nat)
    (target_ns : List String)
    (search_results_lists : List (List SearchItem))
    (enricher_responses : List (Id × Content))
    (phase_responses : List (List (Id × Content))) : RunResult :=
  let store_map := sortResults search_results_lists query_limit stableId
  let store_based := store_map.map (fun p => (p.1, p.2.kind, p.2.content))
  let ephemeral : List Triple := []
  let enriched := mergeUnreferenced enricher_responses store_based
  let s0 := applyEnricherOutput enriched store_based store_map ephemeral
  let removed_ids := sunion [] s0.2.2
  let final := phase_responses.foldl (phaseFold store_map) (s0.1, s0.2.1, removed_ids)
  let final_mem := final.1 ++ final.2.1
  let final_puts := computePuts final_mem final.2.2 store_map target_ns
  let final_deletes := computeDeletes final.2.2 store_map
  ⟨store_map, final.1, final.2.1, final.2.2, final_puts, final_deletes⟩

/-- `MemoryStoreEnricher.invoke`: the synchronous path, transcribed
independently from its own source lines (730–822).  It differs from the
async path only in how the I/O is dispatched (executor futures instead of
`asyncio.gather`), which sits outside this pure core. -/
def invokeRun (stableId : List String → String → Id) (query_limit : Nat)
    (target_ns : List String)
    (search_results_lists : List (List SearchItem))
    (enricher_responses : List (Id × Content))
    (phase_responses : List (List (Id × Content))) : RunResult :=
  let store_map := sortResults search_results_lists query_limit stableId
  let store_based := store_map.map (fun p => (p.1, p.2.kind, p.2.content))
  let ephemeral : List Triple := []
  let enriched := mergeUnreferenced enricher_responses store_based
  let s0 := applyEnricherOutput enriched store_based store_map ephemeral
  let removed_ids := sunion [] s0.2.2
  let final := phase_responses.foldl (phaseFold store_map) (s0.1, s0.2.1, removed_ids)
  let final_mem := final.1 ++ final.2.1
  let final_puts := computePuts final_mem final.2.2 store_map target_ns
  let final_deletes := computeDeletes final.2.2 store_map
  ⟨store_map, final.1, final.2.1, final.2.2, final_puts, final_deletes⟩

/-! ### `MemoryEnricher._prepare_existing`, string branch (lines 199–204) -/

/-- The list-of-strings branch of `_prepare_existing`:
`[(str(uuid.uuid4()), "Memory", MemoryModel(content=ex)) for ex in existing]`
with `MemoryModel = self.schemas[0]`.  The uuid4 generator is modelled as an
opaque supply `fresh` consumed positionally; `schemaName` is the configured
first schema's `__repr_name__`. -/
def prepareExistingStrings (fresh : Nat → Id) (schemaName : String)
    (existing : List String) : List (Id × String × Content) :=
  (List.range existing.length).zip existing |>.map
    (fun p => (fresh p.1, "Memory", Content.model ⟨schemaName, none, p.2⟩))

/-! ### Auxiliary definitions used by the verification -/

/-- Does an operation name the given id (as upsert target or delete target)? -/
def touches (op : Id × Content) (i : Id) : Bool :=
  match op.2 with
  | Content.model m =>
    if m.reprName = "RemoveDoc" then m.jsonDocId = some i else op.1 = i
  | Content.raw _ => op.1 = i

/-- Invariant of the merge fold state relative to the store snapshot `sm` and
the removed ids `R` accumulated in earlier merge calls of the same run
(`st.2.2` is the removed list local to the current call):
the two dicts are duplicate-free and keyed, store-dict keys are snapshot ids,
every snapshot id missing from the store dict has been removed at some point,
the ephemeral dict never shadows a live store-dict key, live store-dict keys
were never removed, and removed ids are snapshot ids. -/
structure StInv (sm : List (Id × SearchItem)) (R : List Id)
    (st : List (Id × Triple) × List (Id × Triple) × List Id) : Prop where
  sdNodup : (dkeys st.1).Nodup
  edNodup : (dkeys st.2.1).Nodup
  sdKeyed : ∀ p ∈ st.1, p.2.1 = p.1
  edKeyed : ∀ p ∈ st.2.1, p.2.1 = p.1
  sdSub : ∀ k ∈ dkeys st.1, k ∈ dkeys sm
  cover : ∀ k ∈ dkeys sm, k ∉ dkeys st.1 → (k ∈ R ∨ k ∈ st.2.2)
  disj : ∀ k ∈ dkeys st.2.1, k ∉ dkeys st.1
  sdFresh : ∀ k ∈ dkeys st.1, k ∉ R ∧ k ∉ st.2.2
  remSub : ∀ k ∈ st.2.2, k ∈ dkeys sm

/-- The invariant as it holds of the `store_based`/`ephemeral` lists and the
accumulated `removed_ids` between merge calls. -/
structure ListInv (sm : List (Id × SearchItem)) (R : List Id)
    (sb eph : List Triple) : Prop where
  sbNodup : (sb.map (fun t : Triple => t.1)).Nodup
  ephNodup : (eph.map (fun t : Triple => t.1)).Nodup
  sbSub : ∀ t ∈ sb, t.1 ∈ dkeys sm
  cover : ∀ k ∈ dkeys sm, (∀ t ∈ sb, t.1 ≠ k) → k ∈ R
  disj : ∀ t ∈ eph, ∀ u ∈ sb, t.1 ≠ u.1
  sbFresh : ∀ t ∈ sb, t.1 ∉ R

/-- The final `(store_based, ephemeral, removed_ids)` state of a run, after
the primary enrichment and all refinement phases. -/
def runFinalState (stableId : List String → String → Id) (query_limit : Nat)
    (search_results_lists : List (List SearchItem))
    (enricher_responses : List (Id × Content))
    (phase_responses : List (List (Id × Content))) :
    List Triple × List Triple × List Id :=
  let store_map := sortResults search_results_lists query_limit stableId
  let store_based := store_map.map (fun p => (p.1, p.2.kind, p.2.content))
  let s0 := applyEnricherOutput (mergeUnreferenced enricher_responses store_based)
    store_based store_map []
  phase_responses.foldl (phaseFold store_map) (s0.1, s0.2.1, sunion [] s0.2.2)

/-- An operation is safe for the store-backed record `(sid, k₀, c₀)` when it
either does not touch `sid`, or is an upsert of `sid` with byte-identical
`(kind, content)`. -/
def SafeFor (sid : Id) (k₀ c₀ : String) (op : Id × Content) : Bool :=
  match op.2 with
  | Content.model m =>
    if m.reprName = "RemoveDoc" then !decide (m.jsonDocId = some sid)
    else !decide (op.1 = sid) || (decide (m.reprName = k₀) && decide (m.dump = c₀))
  | Content.raw d => !decide (op.1 = sid) || decide (d = c₀)

/-! ### Library: folds and dict lemmas -/

theorem foldl_induction {σ γ : Type _} (f : σ → γ → σ) (P : σ → Prop) :
    ∀ (l : List γ) (s : σ), P s → (∀ s a, a ∈ l → P s → P (f s a)) →
    P (l.foldl f s)
  | [], _, h, _ => h
  | a :: l, s, h, hstep =>
    foldl_induction f P l (f s a)
      (hstep s a (List.mem_cons_self a l) h)
      (fun s' b hb h' => hstep s' b (List.mem_cons_of_mem a hb) h')

variable {α β : Type _} [DecidableEq α]

theorem mem_dkeys {l : List (α × β)} {k : α} :
    k ∈ dkeys l ↔ ∃ p ∈ l, p.1 = k := by
  simp [dkeys, List.mem_map]

theorem dget?_cons_of_eq {p : α × β} {ps : List (α × β)} {k : α}
    (h : p.1 = k) : dget? (p :: ps) k = some p.2 := by
  simp [dget?, h]

theorem dget?_cons_of_ne {p : α × β} {ps : List (α × β)} {k : α}
    (h : p.1 ≠ k) : dget? (p :: ps) k = dget? ps k := by
  simp [dget?, h]

theorem dget?_isSome_iff {l : List (α × β)} {k : α} :
    (dget? l k).isSome ↔ k ∈ dkeys l := by
  induction l with
  | nil => simp [dget?, dkeys]
  | cons p ps ih =>
    by_cases h : p.1 = k
    · simp [dget?_cons_of_eq h, dkeys, h]
    · rw [dget?_cons_of_ne h, ih]
      simp only [dkeys, List.map_cons, List.mem_cons]
      constructor
      · exact Or.inr
      · rintro (h' | h')
        · exact absurd h'.symm h
        · exact h'

theorem dget?_eq_none_iff {l : List (α × β)} {k : α} :
    dget? l k = none ↔ k ∉ dkeys l := by
  rw [← dget?_isSome_iff, Option.isSome_iff_ne_none]
  tauto

theorem mem_dget?_isSome {l : List (α × β)} {p : α × β} (h : p ∈ l) :
    (dget? l p.1).isSome :=
  dget?_isSome_iff.mpr (List.mem_map.mpr ⟨p, h, rfl⟩)

theorem dget?_mem {l : List (α × β)} {k : α} {v : β}
    (h : dget? l k = some v) : (k, v) ∈ l := by
  induction l with
  | nil => simp [dget?] at h
  | cons p ps ih =>
    by_cases hp : p.1 = k
    · rw [dget?_cons_of_eq hp] at h
      have hv : p.2 = v := by injection h
      have hpe : p = (k, v) := by
        obtain ⟨a, b⟩ := p
        cases hp
        cases hv
        rfl
      rw [← hpe]
      exact List.mem_cons_self _ _
    · rw [dget?_cons_of_ne hp] at h
      exact List.mem_cons_of_mem _ (ih h)

theorem mem_dget? {l : List (α × β)} {k : α} {v : β}
    (hnd : (dkeys l).Nodup) (h : (k, v) ∈ l) : dget? l k = some v := by
  induction l with
  | nil => simp at h
  | cons p ps ih =>
    simp only [dkeys, List.map_cons, List.nodup_cons] at hnd
    rcases List.mem_cons.mp h with h | h
    · rw [dget?_cons_of_eq (by rw [← h])]
      rw [← h]
    · have hk : p.1 ≠ k := by
        intro he
        apply hnd.1
        rw [he]
        exact List.mem_map.mpr ⟨(k, v), h, rfl⟩
      rw [dget?_cons_of_ne hk]
      exact ih hnd.2 h

theorem dkeys_dpop {l : List (α × β)} {k : α} :
    dkeys (dpop l k) = (dkeys l).filter (fun x => x ≠ k) := by
  induction l with
  | nil => rfl
  | cons p ps ih =>
    by_cases h : p.1 = k <;>
      simp_all [dpop, dkeys, List.filter_cons, h]

theorem dget?_dpop_self {l : List (α × β)} {k : α} :
    dget? (dpop l k) k = none := by
  rw [dget?_eq_none_iff, dkeys_dpop]
  simp

theorem dpop_cons_of_eq {p : α × β} {ps : List (α × β)} {k : α}
    (h : p.1 = k) : dpop (p :: ps) k = dpop ps k := by
  simp [dpop, List.filter_cons, h]

theorem dpop_cons_of_ne {p : α × β} {ps : List (α × β)} {k : α}
    (h : p.1 ≠ k) : dpop (p :: ps) k = p :: dpop ps k := by
  simp [dpop, List.filter_cons, h]

theorem dget?_dpop_ne {l : List (α × β)} {k k' : α} (h : k' ≠ k) :
    dget? (dpop l k) k' = dget? l k' := by
  induction l with
  | nil => rfl
  | cons p ps ih =>
    by_cases hp : p.1 = k
    · have hp' : p.1 ≠ k' := fun he => h (he.symm.trans hp)
      rw [dpop_cons_of_eq hp, ih, dget?_cons_of_ne hp']
    · rw [dpop_cons_of_ne hp]
      by_cases hp' : p.1 = k'
      · rw [dget?_cons_of_eq hp', dget?_cons_of_eq hp']
      · rw [dget?_cons_of_ne hp', dget?_cons_of_ne hp', ih]

theorem dkeys_dinsert_of_mem {l : List (α × β)} {k : α} {v : β}
    (h : k ∈ dkeys l) : dkeys (dinsert l k v) = dkeys l := by
  rw [dinsert, if_pos (dget?_isSome_iff.mpr h)]
  simp only [dkeys, List.map_map]
  apply List.map_congr_left
  intro p _
  by_cases hp : p.1 = k <;> simp [hp]

theorem dkeys_dinsert_of_not_mem {l : List (α × β)} {k : α} {v : β}
    (h : k ∉ dkeys l) : dkeys (dinsert l k v) = dkeys l ++ [k] := by
  rw [dinsert, if_neg (by simp [dget?_eq_none_iff.mpr h])]
  simp [dkeys]

theorem nodup_dkeys_dinsert {l : List (α × β)} {k : α} {v : β}
    (h : (dkeys l).Nodup) : (dkeys (dinsert l k v)).Nodup := by
  by_cases hk : k ∈ dkeys l
  · rw [dkeys_dinsert_of_mem hk]
    exact h
  · rw [dkeys_dinsert_of_not_mem hk]
    simpa [List.nodup_append] using ⟨h, hk⟩

theorem nodup_dkeys_dpop {l : List (α × β)} {k : α}
    (h : (dkeys l).Nodup) : (dkeys (dpop l k)).Nodup := by
  rw [dkeys_dpop]
  exact h.filter _

theorem dget?_append_single_self {l : List (α × β)} {k : α} {v : β}
    (hk : k ∉ dkeys l) : dget? (l ++ [(k, v)]) k = some v := by
  induction l with
  | nil => simp [dget?]
  | cons p ps ih =>
    simp only [dkeys, List.map_cons, List.mem_cons] at hk
    push_neg at hk
    rw [List.cons_append, dget?_cons_of_ne (fun he => hk.1 he.symm)]
    exact ih hk.2

theorem dget?_append_single_ne {l : List (α × β)} {k k' : α} {v : β}
    (h : k' ≠ k) : dget? (l ++ [(k, v)]) k' = dget? l k' := by
  induction l with
  | nil => rw [List.nil_append, dget?_cons_of_ne (fun he => h he.symm)]
  | cons p ps ih =>
    by_cases hp : p.1 = k'
    · rw [List.cons_append, dget?_cons_of_eq hp, dget?_cons_of_eq hp]
    · rw [List.cons_append, dget?_cons_of_ne hp, dget?_cons_of_ne hp, ih]

theorem dget?_map_overwrite_self {l : List (α × β)} {k : α} {v : β}
    (hk : k ∈ dkeys l) :
    dget? (l.map (fun p => if p.1 = k then (k, v) else p)) k = some v := by
  induction l with
  | nil => simp [dkeys] at hk
  | cons p ps ih =>
    by_cases hp : p.1 = k
    · rw [List.map_cons, if_pos hp, dget?_cons_of_eq rfl]
    · have : k ∈ dkeys ps := by
        simp only [dkeys, List.map_cons, List.mem_cons] at hk
        rcases hk with hk | hk
        · exact absurd hk.symm hp
        · exact hk
      rw [List.map_cons, if_neg hp, dget?_cons_of_ne hp]
      exact ih this

theorem dget?_map_overwrite_ne {l : List (α × β)} {k k' : α} {v : β}
    (h : k' ≠ k) :
    dget? (l.map (fun p => if p.1 = k then (k, v) else p)) k' = dget? l k' := by
  induction l with
  | nil => rfl
  | cons p ps ih =>
    by_cases hp : p.1 = k
    · rw [List.map_cons, if_pos hp, dget?_cons_of_ne (fun he : k = k' => h he.symm),
        dget?_cons_of_ne (fun he => h (he.symm.trans hp)), ih]
    · rw [List.map_cons, if_neg hp]
      by_cases hp' : p.1 = k'
      · rw [dget?_cons_of_eq hp', dget?_cons_of_eq hp']
      · rw [dget?_cons_of_ne hp', dget?_cons_of_ne hp', ih]

theorem dget?_dinsert_self {l : List (α × β)} {k : α} {v : β} :
    dget? (dinsert l k v) k = some v := by
  rw [dinsert]
  split
  · exact dget?_map_overwrite_self (dget?_isSome_iff.mp (by assumption))
  · exact dget?_append_single_self
      (fun hm => (by assumption : ¬(dget? l k).isSome = true)
        (dget?_isSome_iff.mpr hm))

theorem dget?_dinsert_ne {l : List (α × β)} {k k' : α} {v : β} (h : k' ≠ k) :
    dget? (dinsert l k v) k' = dget? l k' := by
  rw [dinsert]
  split
  · exact dget?_map_overwrite_ne h
  · exact dget?_append_single_ne h

theorem mem_dinsert {l : List (α × β)} {k : α} {v : β} {p : α × β}
    (h : p ∈ dinsert l k v) : p = (k, v) ∨ (p ∈ l ∧ p.1 ≠ k) := by
  rw [dinsert] at h
  split at h
  · obtain ⟨q, hq, he⟩ := List.mem_map.mp h
    by_cases hqk : q.1 = k
    · rw [if_pos hqk] at he
      exact Or.inl he.symm
    · rw [if_neg hqk] at he
      exact Or.inr ⟨he ▸ hq, he ▸ hqk⟩
  · rcases List.mem_append.mp h with h' | h'
    · rename_i hnone
      right
      refine ⟨h', fun hk => ?_⟩
      rw [Option.not_isSome_iff_eq_none, dget?_eq_none_iff] at hnone
      exact hnone (hk ▸ List.mem_map.mpr ⟨p, h', rfl⟩)
    · simp only [List.mem_singleton] at h'
      exact Or.inl h'

theorem dinsert_of_not_mem {l : List (α × β)} {k : α} {v : β}
    (h : k ∉ dkeys l) : dinsert l k v = l ++ [(k, v)] := by
  rw [dinsert, if_neg (by simp [dget?_eq_none_iff.mpr h])]

theorem dinsert_self_of_mem {l : List (α × β)} {k : α} {v : β}
    (hnd : (dkeys l).Nodup) (h : (k, v) ∈ l) : dinsert l k v = l := by
  have hl : dget? l k = some v := mem_dget? hnd h
  rw [dinsert, if_pos (by rw [hl]; rfl)]
  conv_rhs => rw [← List.map_id l]
  apply List.map_congr_left
  rintro ⟨a, b⟩ hq
  by_cases hqk : a = k
  · subst hqk
    have hb : dget? l a = some b := mem_dget? hnd hq
    rw [hl] at hb
    have hvb : v = b := by injection hb
    subst hvb
    simp
  · simp [hqk]

theorem mem_sunion {s n : List Id} {x : Id} :
    x ∈ sunion s n ↔ x ∈ s ∨ x ∈ n := by
  induction n generalizing s with
  | nil => simp [sunion]
  | cons a n ih =>
    show x ∈ sunion (if a ∈ s then s else s ++ [a]) n ↔ _
    by_cases ha : a ∈ s
    · rw [if_pos ha, ih]
      constructor
      · rintro (h | h)
        · exact Or.inl h
        · exact Or.inr (List.mem_cons_of_mem a h)
      · rintro (h | h)
        · exact Or.inl h
        · rcases List.mem_cons.mp h with rfl | h
          · exact Or.inl ha
          · exact Or.inr h
    · rw [if_neg ha, ih]
      simp only [List.mem_append, List.mem_singleton, List.mem_cons]
      tauto

/-! ### toDict: structure of the rebuilt working dicts -/

/-- Every binding of `toDict l` pairs an id with a triple from `l` carrying
that id. -/
theorem toDict_mem {l : List Triple} {p : Id × Triple} (h : p ∈ toDict l) :
    p.2 ∈ l ∧ p.2.1 = p.1 := by
  have key : ∀ q ∈ toDict l, q.2 ∈ l ∧ q.2.1 = q.1 := by
    rw [toDict]
    refine foldl_induction (fun d (t : Triple) => dinsert d t.1 t)
      (fun d => ∀ q ∈ d, q.2 ∈ l ∧ q.2.1 = q.1) l [] (by simp) ?_
    intro d t ht hd q hq
    rcases mem_dinsert hq with rfl | ⟨hq', _⟩
    · exact ⟨ht, rfl⟩
    · exact hd q hq'
  exact key p h

theorem dget?_toDict_eq_none {l : List Triple} {i : Id}
    (h : ∀ t ∈ l, t.1 ≠ i) : dget? (toDict l) i = none := by
  rw [dget?_eq_none_iff]
  intro hm
  obtain ⟨p, hp, hpi⟩ := mem_dkeys.mp hm
  exact h p.2 (toDict_mem hp).1 (((toDict_mem hp).2).trans hpi)

theorem foldl_dinsert_fresh {l : List Triple} {d : List (Id × Triple)}
    (hd : ∀ t ∈ l, t.1 ∉ dkeys d) (hl : (l.map (fun t : Triple => t.1)).Nodup) :
    l.foldl (fun d t => dinsert d t.1 t) d = d ++ l.map (fun t => (t.1, t)) := by
  induction l generalizing d with
  | nil => simp
  | cons t ts ih =>
    simp only [List.map_cons, List.nodup_cons] at hl
    rw [List.foldl_cons, dinsert_of_not_mem (hd t (List.mem_cons_self t ts)), ih]
    · simp
    · intro u hu
      rw [show dkeys (d ++ [(t.1, t)]) = dkeys d ++ [t.1] from by simp [dkeys]]
      simp only [List.mem_append, List.mem_singleton]
      push_neg
      refine ⟨hd u (List.mem_cons_of_mem t hu), fun he => hl.1 ?_⟩
      rw [← he]
      exact List.mem_map.mpr ⟨u, hu, rfl⟩
    · exact hl.2

theorem toDict_eq_map {l : List Triple}
    (hl : (l.map (fun t : Triple => t.1)).Nodup) :
    toDict l = l.map (fun t => (t.1, t)) := by
  rw [toDict, foldl_dinsert_fresh (by simp [dkeys]) hl, List.nil_append]

theorem toDict_snd {l : List Triple}
    (hl : (l.map (fun t : Triple => t.1)).Nodup) :
    (toDict l).map Prod.snd = l := by
  rw [toDict_eq_map hl, List.map_map]
  conv_rhs => rw [← List.map_id l]
  exact List.map_congr_left (fun t _ => rfl)

theorem dkeys_toDict {l : List Triple}
    (hl : (l.map (fun t : Triple => t.1)).Nodup) :
    dkeys (toDict l) = l.map (fun t : Triple => t.1) := by
  rw [toDict_eq_map hl, dkeys, List.map_map]
  rfl

theorem dget?_toDict_of_mem {l : List Triple} {t : Triple}
    (hl : (l.map (fun t : Triple => t.1)).Nodup) (h : t ∈ l) :
    dget? (toDict l) t.1 = some t := by
  rw [toDict_eq_map hl]
  apply mem_dget?
  · rw [show dkeys (l.map (fun t : Triple => (t.1, t))) = l.map (fun t : Triple => t.1)
      from by simp [dkeys, List.map_map]]
    exact hl
  · exact List.mem_map.mpr ⟨t, h, rfl⟩

/-- Round trip: rebuilding the dict from the value list of a keyed,
duplicate-free dict gives the dict back. -/
theorem toDict_roundtrip {d : List (Id × Triple)}
    (hnd : (dkeys d).Nodup) (hkeyed : ∀ p ∈ d, p.2.1 = p.1) :
    toDict (d.map Prod.snd) = d := by
  have hids : ((d.map Prod.snd).map (fun t : Triple => t.1)) = dkeys d := by
    rw [List.map_map]
    exact List.map_congr_left (fun p hp => hkeyed p hp)
  rw [toDict_eq_map (by rw [hids]; exact hnd), List.map_map]
  conv_rhs => rw [← List.map_id d]
  apply List.map_congr_left
  intro p hp
  have := hkeyed p hp
  simp only [Function.comp, id]
  obtain ⟨k, t⟩ := p
  simp only at this
  rw [this]

/-! ### applyStep: case equations and frame lemmas -/

theorem applyStep_removeDoc {sm : List (Id × SearchItem)}
    {st : List (Id × Triple) × List (Id × Triple) × List Id}
    {j : Id} {m : PModel} {rid : Id}
    (hm : m.reprName = "RemoveDoc") (hid : m.jsonDocId = some rid) :
    applyStep sm st (j, Content.model m) =
      (dpop st.1 rid, dpop st.2.1 rid,
        if rid ≠ "" ∧ (dget? sm rid).isSome then st.2.2 ++ [rid] else st.2.2) := by
  simp [applyStep, hm, hid]

theorem applyStep_removeDoc_none {sm : List (Id × SearchItem)}
    {st : List (Id × Triple) × List (Id × Triple) × List Id}
    {j : Id} {m : PModel}
    (hm : m.reprName = "RemoveDoc") (hid : m.jsonDocId = none) :
    applyStep sm st (j, Content.model m) = st := by
  simp [applyStep, hm, hid]

theorem applyStep_model_store {sm : List (Id × SearchItem)}
    {st : List (Id × Triple) × List (Id × Triple) × List Id}
    {i : Id} {m : PModel}
    (hm : m.reprName ≠ "RemoveDoc") (hs : (dget? st.1 i).isSome) :
    applyStep sm st (i, Content.model m) =
      (dinsert st.1 i (i, m.reprName, m.dump), st.2.1, st.2.2) := by
  simp [applyStep, hm, hs]

theorem applyStep_model_eph {sm : List (Id × SearchItem)}
    {st : List (Id × Triple) × List (Id × Triple) × List Id}
    {i : Id} {m : PModel}
    (hm : m.reprName ≠ "RemoveDoc") (hs : dget? st.1 i = none) :
    applyStep sm st (i, Content.model m) =
      (st.1, dinsert st.2.1 i (i, m.reprName, m.dump), st.2.2) := by
  simp [applyStep, hm, hs]

theorem applyStep_raw_store {sm : List (Id × SearchItem)}
    {st : List (Id × Triple) × List (Id × Triple) × List Id}
    {i : Id} {d : String} {t : Triple}
    (hs : dget? st.1 i = some t) :
    applyStep sm st (i, Content.raw d) =
      (dinsert st.1 i (i, t.2.1, d), st.2.1, st.2.2) := by
  simp [applyStep, hs]

theorem applyStep_raw_eph {sm : List (Id × SearchItem)}
    {st : List (Id × Triple) × List (Id × Triple) × List Id}
    {i : Id} {d : String}
    (hs : dget? st.1 i = none) :
    applyStep sm st (i, Content.raw d) =
      (st.1, dinsert st.2.1 i (i, "Memory", d), st.2.2) := by
  simp [applyStep, hs]

/-- An operation that does not touch `i` leaves the bindings at `i` and the
membership of `i` in the removed list unchanged. -/
theorem applyStep_untouched {sm : List (Id × SearchItem)}
    {st : List (Id × Triple) × List (Id × Triple) × List Id}
    {op : Id × Content} {i : Id} (h : touches op i = false) :
    dget? (applyStep sm st op).1 i = dget? st.1 i ∧
    dget? (applyStep sm st op).2.1 i = dget? st.2.1 i ∧
    (i ∈ (applyStep sm st op).2.2 ↔ i ∈ st.2.2) := by
  obtain ⟨j, c⟩ := op
  cases c with
  | model m =>
    by_cases hm : m.reprName = "RemoveDoc"
    · cases hid : m.jsonDocId with
      | none => rw [applyStep_removeDoc_none hm hid]; exact ⟨rfl, rfl, Iff.rfl⟩
      | some rid =>
        have hne : rid ≠ i := by
          simp only [touches, hm, if_pos, hid] at h
          simpa using h
        rw [applyStep_removeDoc hm hid]
        refine ⟨dget?_dpop_ne (fun he => hne he.symm),
          dget?_dpop_ne (fun he => hne he.symm), ?_⟩
        split
        · simp only [List.mem_append, List.mem_singleton]
          constructor
          · rintro (h' | rfl)
            · exact h'
            · exact absurd rfl hne
          · exact Or.inl
        · exact Iff.rfl
    · have hne : j ≠ i := by simpa [touches, hm] using h
      by_cases hs : (dget? st.1 j).isSome
      · rw [applyStep_model_store hm hs]
        exact ⟨dget?_dinsert_ne (fun he => hne he.symm), rfl, Iff.rfl⟩
      · rw [applyStep_model_eph hm (Option.not_isSome_iff_eq_none.mp hs)]
        exact ⟨rfl, dget?_dinsert_ne (fun he => hne he.symm), Iff.rfl⟩
  | raw d =>
    have hne : j ≠ i := by simpa [touches] using h
    cases hs : dget? st.1 j with
    | some t =>
      rw [applyStep_raw_store hs]
      exact ⟨dget?_dinsert_ne (fun he => hne he.symm), rfl, Iff.rfl⟩
    | none =>
      rw [applyStep_raw_eph hs]
      exact ⟨rfl, dget?_dinsert_ne (fun he => hne he.symm), Iff.rfl⟩

/-- Fold version of `applyStep_untouched`. -/
theorem foldl_applyStep_untouched {sm : List (Id × SearchItem)}
    {ops : List (Id × Content)} {i : Id}
    (h : ∀ op ∈ ops, touches op i = false)
    (st : List (Id × Triple) × List (Id × Triple) × List Id) :
    dget? (ops.foldl (applyStep sm) st).1 i = dget? st.1 i ∧
    dget? (ops.foldl (applyStep sm) st).2.1 i = dget? st.2.1 i ∧
    (i ∈ (ops.foldl (applyStep sm) st).2.2 ↔ i ∈ st.2.2) := by
  induction ops generalizing st with
  | nil => exact ⟨rfl, rfl, Iff.rfl⟩
  | cons op ops ih =>
    rw [List.foldl_cons]
    have h1 := @applyStep_untouched sm st op i
      (h op (List.mem_cons_self op ops))
    have h2 := ih (fun o ho => h o (List.mem_cons_of_mem op ho)) (applyStep sm st op)
    exact ⟨h2.1.trans h1.1, h2.2.1.trans h1.2.1, h2.2.2.trans h1.2.2⟩

/-- The working dicts of the merge engine stay keyed: the value stored at a
key is a triple whose id is that key. -/
theorem foldl_applyStep_keyed {sm : List (Id × SearchItem)}
    {ops : List (Id × Content)}
    {st : List (Id × Triple) × List (Id × Triple) × List Id}
    (h1 : ∀ p ∈ st.1, p.2.1 = p.1) (h2 : ∀ p ∈ st.2.1, p.2.1 = p.1) :
    (∀ p ∈ (ops.foldl (applyStep sm) st).1, p.2.1 = p.1) ∧
    (∀ p ∈ (ops.foldl (applyStep sm) st).2.1, p.2.1 = p.1) := by
  refine foldl_induction (applyStep sm)
    (fun s => (∀ p ∈ s.1, p.2.1 = p.1) ∧ (∀ p ∈ s.2.1, p.2.1 = p.1))
    ops st ⟨h1, h2⟩ ?_
  rintro s ⟨j, c⟩ - ⟨hs1, hs2⟩
  cases c with
  | model m =>
    by_cases hm : m.reprName = "RemoveDoc"
    · cases hid : m.jsonDocId with
      | none => rw [applyStep_removeDoc_none hm hid]; exact ⟨hs1, hs2⟩
      | some rid =>
        rw [applyStep_removeDoc hm hid]
        exact ⟨fun p hp => hs1 p (List.mem_of_mem_filter hp),
          fun p hp => hs2 p (List.mem_of_mem_filter hp), ⟩
    · by_cases hs : (dget? s.1 j).isSome
      · rw [applyStep_model_store hm hs]
        refine ⟨fun p hp => ?_, hs2⟩
        rcases mem_dinsert hp with rfl | ⟨hp', _⟩
        · rfl
        · exact hs1 p hp'
      · rw [applyStep_model_eph hm (Option.not_isSome_iff_eq_none.mp hs)]
        refine ⟨hs1, fun p hp => ?_⟩
        rcases mem_dinsert hp with rfl | ⟨hp', _⟩
        · rfl
        · exact hs2 p hp'
  | raw d =>
    cases hs : dget? s.1 j with
    | some t =>
      rw [applyStep_raw_store hs]
      refine ⟨fun p hp => ?_, hs2⟩
      rcases mem_dinsert hp with rfl | ⟨hp', _⟩
      · rfl
      · exact hs1 p hp'
    | none =>
      rw [applyStep_raw_eph hs]
      refine ⟨hs1, fun p hp => ?_⟩
      rcases mem_dinsert hp with rfl | ⟨hp', _⟩
      · rfl
      · exact hs2 p hp'

/-! ### mergeUnreferenced: decomposition -/

/-- The merged enricher output is the responses followed by pass-through
operations; every pass-through operation is a raw re-proposal of an existing
record whose id no response (and no earlier pass-through) used. -/
theorem mergeUnreferenced_decomp (rs : List (Id × Content)) (l : List Triple) :
    ∃ extra, mergeUnreferenced rs l = rs ++ extra ∧
      ∀ x ∈ extra, (∃ t ∈ l, x = (t.1, Content.raw t.2.2)) ∧ ∀ r ∈ rs, r.1 ≠ x.1 := by
  induction l generalizing rs with
  | nil => exact ⟨[], by simp [mergeUnreferenced], by simp⟩
  | cons t ts ih =>
    have hstep : mergeUnreferenced rs (t :: ts) =
        mergeUnreferenced
          (if rs.any (fun r => r.1 = t.1) then rs
            else rs ++ [(t.1, Content.raw t.2.2)]) ts := rfl
    by_cases hany : rs.any (fun r => r.1 = t.1)
    · rw [hstep, if_pos hany]
      obtain ⟨extra, he, hx⟩ := ih rs
      refine ⟨extra, he, fun x hx' => ?_⟩
      obtain ⟨⟨u, hu, hue⟩, hr⟩ := hx x hx'
      exact ⟨⟨u, List.mem_cons_of_mem t hu, hue⟩, hr⟩
    · rw [hstep, if_neg hany]
      obtain ⟨extra, he, hx⟩ := ih (rs ++ [(t.1, Content.raw t.2.2)])
      refine ⟨(t.1, Content.raw t.2.2) :: extra, by rw [he]; simp, ?_⟩
      intro x hx'
      rcases List.mem_cons.mp hx' with rfl | hx'
      · refine ⟨⟨t, List.mem_cons_self t ts, rfl⟩, fun r hr he' => ?_⟩
        exact hany (List.any_eq_true.mpr ⟨r, hr, by simpa using he'⟩)
      · obtain ⟨⟨u, hu, hue⟩, hr⟩ := hx x hx'
        exact ⟨⟨u, List.mem_cons_of_mem t hu, hue⟩,
          fun r hrr => hr r (List.mem_append_left _ hrr)⟩

/-! ### The persistence planner as a filterMap -/

theorem computePuts_eq_filterMap (final_mem : List Triple) (removed_ids : List Id)
    (store_map : List (Id × SearchItem)) (target_ns : List String) :
    computePuts final_mem removed_ids store_map target_ns =
      final_mem.filterMap (putFor store_map removed_ids target_ns) := by
  suffices h : ∀ acc, final_mem.foldl
      (fun acc t =>
        if t.1 ∈ removed_ids then acc
        else
          match dget? store_map t.1 with
          | some old_art =>
            if old_art.kind ≠ t.2.1 ∨ old_art.content ≠ t.2.2 then
              acc ++ [⟨old_art.ns, old_art.key, t.2.1, t.2.2⟩]
            else acc
          | none => acc ++ [⟨target_ns, t.1, t.2.1, t.2.2⟩]) acc =
      acc ++ final_mem.filterMap (putFor store_map removed_ids target_ns) by
    simpa [computePuts] using h []
  induction final_mem with
  | nil => simp
  | cons t ts ih =>
    intro acc
    rw [List.foldl_cons, List.filterMap_cons, ih]
    by_cases h1 : t.1 ∈ removed_ids
    · simp [putFor, h1]
    · cases h2 : dget? store_map t.1 with
      | some old_art =>
        by_cases h3 : old_art.kind ≠ t.2.1 ∨ old_art.content ≠ t.2.2
        · simp [putFor, h1, h2, h3]
        · simp [putFor, h1, h2, h3]
      | none => simp [putFor, h1, h2]

theorem computeDeletes_eq_filterMap (removed_ids : List Id)
    (store_map : List (Id × SearchItem)) :
    computeDeletes removed_ids store_map =
      removed_ids.filterMap
        (fun sid => (dget? store_map sid).map (fun art => (art.ns, art.key))) := by
  suffices h : ∀ acc, removed_ids.foldl
      (fun acc sid =>
        match dget? store_map sid with
        | some art => acc ++ [(art.ns, art.key)]
        | none => acc) acc =
      acc ++ removed_ids.filterMap
        (fun sid => (dget? store_map sid).map (fun art => (art.ns, art.key))) by
    simpa [computeDeletes] using h []
  induction removed_ids with
  | nil => simp
  | cons sid ts ih =>
    intro acc
    rw [List.foldl_cons, List.filterMap_cons, ih]
    cases h2 : dget? store_map sid with
    | some art => simp [h2]
    | none => simp [h2]

/-! ### Phase-level deletion lemmas -/

/-- Store-dict keys never grow during the merge fold: upserts into the store
dict only overwrite existing keys, and deletes only remove keys. -/
theorem applyStep_sd_keys_subset {sm : List (Id × SearchItem)}
    {st : List (Id × Triple) × List (Id × Triple) × List Id}
    {op : Id × Content} {k : Id}
    (h : k ∈ dkeys (applyStep sm st op).1) : k ∈ dkeys st.1 := by
  obtain ⟨j, c⟩ := op
  cases c with
  | model m =>
    by_cases hm : m.reprName = "RemoveDoc"
    · cases hid : m.jsonDocId with
      | none => rw [applyStep_removeDoc_none hm hid] at h; exact h
      | some rid =>
        rw [applyStep_removeDoc hm hid] at h
        simp only [dkeys_dpop, List.mem_filter] at h
        exact h.1
    · by_cases hs : (dget? st.1 j).isSome
      · rw [applyStep_model_store hm hs] at h
        rwa [dkeys_dinsert_of_mem (dget?_isSome_iff.mp hs)] at h
      · rw [applyStep_model_eph hm (Option.not_isSome_iff_eq_none.mp hs)] at h
        exact h
  | raw d =>
    cases hs : dget? st.1 j with
    | some t =>
      rw [applyStep_raw_store hs] at h
      rwa [dkeys_dinsert_of_mem (dget?_isSome_iff.mp (by rw [hs]; rfl))] at h
    | none =>
      rw [applyStep_raw_eph hs] at h
      exact h

/-- A `RemoveDoc` operation after which no operation touches its target
leaves the target id absent from both working dicts at the end of the fold,
and (when the id is non-empty and store-backed) recorded as removed. -/
theorem foldl_removeDoc_absent {sm : List (Id × SearchItem)}
    {l₁ l₂ : List (Id × Content)} {j rid : Id} {m : PModel}
    (hm : m.reprName = "RemoveDoc") (hid : m.jsonDocId = some rid)
    (hl₂ : ∀ op ∈ l₂, touches op rid = false)
    (st : List (Id × Triple) × List (Id × Triple) × List Id) :
    dget? ((l₁ ++ (j, Content.model m) :: l₂).foldl (applyStep sm) st).1 rid = none ∧
    dget? ((l₁ ++ (j, Content.model m) :: l₂).foldl (applyStep sm) st).2.1 rid = none ∧
    (rid ≠ "" → rid ∈ dkeys sm →
      rid ∈ ((l₁ ++ (j, Content.model m) :: l₂).foldl (applyStep sm) st).2.2) := by
  rw [List.foldl_append, List.foldl_cons]
  set st₁ := l₁.foldl (applyStep sm) st with hst₁
  have hdel := @applyStep_removeDoc sm st₁ j m rid hm hid
  have hu := @foldl_applyStep_untouched sm l₂ rid hl₂
    (applyStep sm st₁ (j, Content.model m))
  refine ⟨?_, ?_, ?_⟩
  · rw [hu.1, hdel]
    exact dget?_dpop_self
  · rw [hu.2.1, hdel]
    exact dget?_dpop_self
  · intro hne hmem
    rw [hu.2.2, hdel]
    simp only
    rw [if_pos ⟨hne, dget?_isSome_iff.mpr hmem⟩]
    simp

/-- Applying an enricher output that deletes `rid` with no later operation
touching it: `rid` is absent from both output record lists, and is reported
removed when it was a (non-empty) store-map key. -/
theorem applyEnricherOutput_removeDoc_absent
    {sm : List (Id × SearchItem)} {sb eph : List Triple}
    {l₁ l₂ : List (Id × Content)} {j rid : Id} {m : PModel}
    (hm : m.reprName = "RemoveDoc") (hid : m.jsonDocId = some rid)
    (hl₂ : ∀ op ∈ l₂, touches op rid = false) :
    (∀ t ∈ (applyEnricherOutput (l₁ ++ (j, Content.model m) :: l₂) sb sm eph).1,
      t.1 ≠ rid) ∧
    (∀ t ∈ (applyEnricherOutput (l₁ ++ (j, Content.model m) :: l₂) sb sm eph).2.1,
      t.1 ≠ rid) ∧
    (rid ≠ "" → rid ∈ dkeys sm →
      rid ∈ (applyEnricherOutput (l₁ ++ (j, Content.model m) :: l₂) sb sm eph).2.2) := by
  have habs := @foldl_removeDoc_absent sm l₁ l₂ j rid m hm hid hl₂
    (toDict sb, toDict eph, [])
  have hkeyed := @foldl_applyStep_keyed sm
    (l₁ ++ (j, Content.model m) :: l₂)
    (toDict sb, toDict eph, [])
    (fun p hp => (toDict_mem hp).2) (fun p hp => (toDict_mem hp).2)
  rw [applyEnricherOutput]
  refine ⟨?_, ?_, habs.2.2⟩
  · intro t ht hti
    obtain ⟨p, hp, hpt⟩ := List.mem_map.mp ht
    have : p.1 = rid := by rw [← hkeyed.1 p hp, hpt, hti]
    have hsome := mem_dget?_isSome hp
    rw [this] at hsome
    rw [habs.1] at hsome
    exact Bool.noConfusion hsome
  · intro t ht hti
    obtain ⟨p, hp, hpt⟩ := List.mem_map.mp ht
    have : p.1 = rid := by rw [← hkeyed.2 p hp, hpt, hti]
    have hsome := mem_dget?_isSome hp
    rw [this] at hsome
    rw [habs.2.1] at hsome
    exact Bool.noConfusion hsome

/-! ### Run invariant: working dicts vs. store snapshot -/

theorem upsert_store_StInv {sm : List (Id × SearchItem)} {R : List Id}
    {st : List (Id × Triple) × List (Id × Triple) × List Id}
    {i : Id} {k c : String} (hs : (dget? st.1 i).isSome)
    (h : StInv sm R st) :
    StInv sm R (dinsert st.1 i (i, k, c), st.2.1, st.2.2) := by
  have hkeys : dkeys (dinsert st.1 i (i, k, c)) = dkeys st.1 :=
    dkeys_dinsert_of_mem (dget?_isSome_iff.mp hs)
  refine ⟨by rw [hkeys]; exact h.sdNodup, h.edNodup, ?_, h.edKeyed,
    by rw [hkeys]; exact h.sdSub, by rw [hkeys]; exact h.cover,
    by rw [hkeys]; exact h.disj, by rw [hkeys]; exact h.sdFresh, h.remSub⟩
  intro p hp
  rcases mem_dinsert hp with rfl | ⟨hp', _⟩
  · rfl
  · exact h.sdKeyed p hp'

theorem upsert_eph_StInv {sm : List (Id × SearchItem)} {R : List Id}
    {st : List (Id × Triple) × List (Id × Triple) × List Id}
    {i : Id} {k c : String} (hs : dget? st.1 i = none)
    (h : StInv sm R st) :
    StInv sm R (st.1, dinsert st.2.1 i (i, k, c), st.2.2) := by
  have hsd : i ∉ dkeys st.1 := dget?_eq_none_iff.mp hs
  refine ⟨h.sdNodup, nodup_dkeys_dinsert h.edNodup, h.sdKeyed, ?_, h.sdSub,
    h.cover, ?_, h.sdFresh, h.remSub⟩
  · intro p hp
    rcases mem_dinsert hp with rfl | ⟨hp', _⟩
    · rfl
    · exact h.edKeyed p hp'
  · intro k' hk'
    by_cases hi : i ∈ dkeys st.2.1
    · rw [dkeys_dinsert_of_mem hi] at hk'
      exact h.disj k' hk'
    · rw [dkeys_dinsert_of_not_mem hi] at hk'
      rcases List.mem_append.mp hk' with hk' | hk'
      · exact h.disj k' hk'
      · rw [List.mem_singleton] at hk'
        rw [hk']
        exact hsd

theorem applyStep_StInv {sm : List (Id × SearchItem)} {R : List Id}
    {st : List (Id × Triple) × List (Id × Triple) × List Id}
    {op : Id × Content}
    (hE : ∀ k ∈ dkeys sm, k ≠ "")
    (h : StInv sm R st) : StInv sm R (applyStep sm st op) := by
  obtain ⟨j, c⟩ := op
  cases c with
  | model m =>
    by_cases hm : m.reprName = "RemoveDoc"
    · cases hid : m.jsonDocId with
      | none => rw [applyStep_removeDoc_none hm hid]; exact h
      | some rid =>
        rw [applyStep_removeDoc hm hid]
        have hrsub : ∀ x,
            x ∈ (if rid ≠ "" ∧ (dget? sm rid).isSome then st.2.2 ++ [rid]
              else st.2.2) → x ∈ st.2.2 ∨ x = rid := by
          intro x hx
          split at hx
          · rcases List.mem_append.mp hx with hx | hx
            · exact Or.inl hx
            · exact Or.inr (List.mem_singleton.mp hx)
          · exact Or.inl hx
        refine ⟨nodup_dkeys_dpop h.sdNodup, nodup_dkeys_dpop h.edNodup,
          fun p hp => h.sdKeyed p (List.mem_of_mem_filter hp),
          fun p hp => h.edKeyed p (List.mem_of_mem_filter hp),
          ?_, ?_, ?_, ?_, ?_⟩
        · intro k hk
          rw [dkeys_dpop] at hk
          exact h.sdSub k (List.mem_of_mem_filter hk)
        · intro k hk hk'
          rw [dkeys_dpop, List.mem_filter] at hk'
          push_neg at hk'
          by_cases hmem : k ∈ dkeys st.1
          · have hkr : k = rid := by
              have := hk' hmem
              simpa using this
            subst hkr
            right
            rw [if_pos ⟨hE k hk, dget?_isSome_iff.mpr hk⟩]
            simp
          · rcases h.cover k hk hmem with hR | hrem
            · exact Or.inl hR
            · right
              split
              · exact List.mem_append_left _ hrem
              · exact hrem
        · intro k hk
          have hk' : k ∈ dkeys st.2.1 := by
            rw [dkeys_dpop] at hk
            exact List.mem_of_mem_filter hk
          have hnot : k ∉ dkeys st.1 := h.disj k hk'
          rw [dkeys_dpop]
          intro hmem
          exact hnot (List.mem_of_mem_filter hmem)
        · intro k hk
          rw [dkeys_dpop] at hk
          have hk1 : k ∈ dkeys st.1 := List.mem_of_mem_filter hk
          have hne : k ≠ rid := by simpa using List.of_mem_filter hk
          obtain ⟨hR, hrem⟩ := h.sdFresh k hk1
          refine ⟨hR, fun hx => ?_⟩
          rcases hrsub k hx with hx | hx
          · exact hrem hx
          · exact hne hx
        · intro k hk
          split at hk
          next hcond =>
            rcases List.mem_append.mp hk with hk | hk
            · exact h.remSub k hk
            · rw [List.mem_singleton] at hk
              subst hk
              exact dget?_isSome_iff.mp hcond.2
          next hcond => exact h.remSub k hk
    · by_cases hs : (dget? st.1 j).isSome
      · rw [applyStep_model_store hm hs]
        exact upsert_store_StInv hs h
      · rw [applyStep_model_eph hm (Option.not_isSome_iff_eq_none.mp hs)]
        exact upsert_eph_StInv (Option.not_isSome_iff_eq_none.mp hs) h
  | raw d =>
    cases hs : dget? st.1 j with
    | some t =>
      rw [applyStep_raw_store hs]
      exact upsert_store_StInv (by rw [hs]; rfl) h
    | none =>
      rw [applyStep_raw_eph hs]
      exact upsert_eph_StInv hs h

theorem foldl_applyStep_StInv {sm : List (Id × SearchItem)} {R : List Id}
    {st : List (Id × Triple) × List (Id × Triple) × List Id}
    {ops : List (Id × Content)}
    (hE : ∀ k ∈ dkeys sm, k ≠ "")
    (h : StInv sm R st) : StInv sm R (ops.foldl (applyStep sm) st) :=
  foldl_induction (applyStep sm) (StInv sm R) ops st h
    (fun s _ _ hs => applyStep_StInv hE hs)

/-! ### List-level invariant threaded between phases -/

theorem ListInv.toSt {sm : List (Id × SearchItem)} {R : List Id}
    {sb eph : List Triple} (h : ListInv sm R sb eph) :
    StInv sm R (toDict sb, toDict eph, []) := by
  have hsb := toDict_eq_map h.sbNodup
  have heph := toDict_eq_map h.ephNodup
  have hksb : dkeys (toDict sb) = sb.map (fun t : Triple => t.1) :=
    dkeys_toDict h.sbNodup
  have hkeph : dkeys (toDict eph) = eph.map (fun t : Triple => t.1) :=
    dkeys_toDict h.ephNodup
  refine ⟨?_, ?_, fun p hp => (toDict_mem hp).2, fun p hp => (toDict_mem hp).2,
    ?_, ?_, ?_, ?_, by simp⟩
  · rw [hksb]; exact h.sbNodup
  · rw [hkeph]; exact h.ephNodup
  · intro k hk
    rw [hksb] at hk
    obtain ⟨t, ht, rfl⟩ := List.mem_map.mp hk
    exact h.sbSub t ht
  · intro k hk hk'
    left
    refine h.cover k hk (fun t ht hte => hk' ?_)
    rw [hksb]
    exact List.mem_map.mpr ⟨t, ht, hte⟩
  · intro k hk
    rw [hkeph] at hk
    rw [hksb]
    obtain ⟨t, ht, rfl⟩ := List.mem_map.mp hk
    intro hk'
    obtain ⟨u, hu, hue⟩ := List.mem_map.mp hk'
    exact h.disj t ht u hu hue.symm
  · intro k hk
    rw [hksb] at hk
    obtain ⟨t, ht, rfl⟩ := List.mem_map.mp hk
    exact ⟨h.sbFresh t ht, by simp⟩

theorem StInv.toList {sm : List (Id × SearchItem)} {R : List Id}
    {st : List (Id × Triple) × List (Id × Triple) × List Id}
    (h : StInv sm R st) :
    ListInv sm (sunion R st.2.2) (st.1.map Prod.snd) (st.2.1.map Prod.snd) := by
  have hsb : (st.1.map Prod.snd).map (fun t : Triple => t.1) = dkeys st.1 := by
    rw [List.map_map]
    exact List.map_congr_left (fun p hp => h.sdKeyed p hp)
  have heph : (st.2.1.map Prod.snd).map (fun t : Triple => t.1) = dkeys st.2.1 := by
    rw [List.map_map]
    exact List.map_congr_left (fun p hp => h.edKeyed p hp)
  refine ⟨by rw [hsb]; exact h.sdNodup, by rw [heph]; exact h.edNodup,
    ?_, ?_, ?_, ?_⟩
  · intro t ht
    obtain ⟨p, hp, rfl⟩ := List.mem_map.mp ht
    rw [h.sdKeyed p hp]
    exact h.sdSub p.1 (List.mem_map.mpr ⟨p, hp, rfl⟩)
  · intro k hk hk'
    have hns : k ∉ dkeys st.1 := by
      intro hmem
      obtain ⟨p, hp, hpe⟩ := List.mem_map.mp hmem
      refine hk' p.2 (List.mem_map.mpr ⟨p, hp, rfl⟩) ?_
      rw [h.sdKeyed p hp, hpe]
    exact mem_sunion.mpr (h.cover k hk hns)
  · intro t ht u hu
    obtain ⟨p, hp, rfl⟩ := List.mem_map.mp ht
    obtain ⟨q, hq, rfl⟩ := List.mem_map.mp hu
    rw [h.edKeyed p hp, h.sdKeyed q hq]
    intro he
    refine h.disj p.1 (List.mem_map.mpr ⟨p, hp, rfl⟩) ?_
    rw [he]
    exact List.mem_map.mpr ⟨q, hq, rfl⟩
  · intro t ht
    obtain ⟨p, hp, rfl⟩ := List.mem_map.mp ht
    rw [h.sdKeyed p hp]
    obtain ⟨hR, hrem⟩ := h.sdFresh p.1 (List.mem_map.mpr ⟨p, hp, rfl⟩)
    intro hx
    rcases mem_sunion.mp hx with hx | hx
    · exact hR hx
    · exact hrem hx

theorem applyEnricherOutput_eq (ops : List (Id × Content)) (sb : List Triple)
    (sm : List (Id × SearchItem)) (eph : List Triple) :
    applyEnricherOutput ops sb sm eph =
      ((ops.foldl (applyStep sm) (toDict sb, toDict eph, [])).1.map Prod.snd,
       (ops.foldl (applyStep sm) (toDict sb, toDict eph, [])).2.1.map Prod.snd,
       (ops.foldl (applyStep sm) (toDict sb, toDict eph, [])).2.2) := rfl

/-- One merge call preserves the list-level invariant, accumulating the call's
removed ids. -/
theorem applyEnricherOutput_ListInv {sm : List (Id × SearchItem)} {R : List Id}
    {sb eph : List Triple} (ops : List (Id × Content))
    (hE : ∀ k ∈ dkeys sm, k ≠ "")
    (h : ListInv sm R sb eph) :
    ListInv sm (sunion R (applyEnricherOutput ops sb sm eph).2.2)
      (applyEnricherOutput ops sb sm eph).1
      (applyEnricherOutput ops sb sm eph).2.1 := by
  have hst := @foldl_applyStep_StInv sm R (toDict sb, toDict eph, []) ops hE h.toSt
  rw [applyEnricherOutput_eq]
  exact hst.toList

theorem nodup_dkeys_sortResults (search_results_lists : List (List SearchItem))
    (query_limit : Nat) (stableId : List String → String → Id) :
    (dkeys (sortResults search_results_lists query_limit stableId)).Nodup := by
  rw [sortResults]
  exact foldl_induction _ (fun d => (dkeys d).Nodup) _ [] (by simp [dkeys])
    (fun d a _ hd => nodup_dkeys_dinsert hd)

theorem initial_ListInv {sm : List (Id × SearchItem)} (hnd : (dkeys sm).Nodup) :
    ListInv sm [] (sm.map (fun p => (p.1, p.2.kind, p.2.content))) [] := by
  have hids : (sm.map (fun p => (p.1, p.2.kind, p.2.content))).map
      (fun t : Triple => t.1) = dkeys sm := by
    rw [List.map_map]
    rfl
  refine ⟨by rw [hids]; exact hnd, by simp, ?_, ?_, by simp, by simp⟩
  · intro t ht
    obtain ⟨p, hp, rfl⟩ := List.mem_map.mp ht
    exact List.mem_map.mpr ⟨p, hp, rfl⟩
  · intro k hk hk'
    obtain ⟨p, hp, rfl⟩ := List.mem_map.mp hk
    exact absurd rfl (hk' (p.1, p.2.kind, p.2.content) (List.mem_map.mpr ⟨p, hp, rfl⟩))

theorem ainvokeRun_eq_final (stableId : List String → String → Id)
    (query_limit : Nat) (target_ns : List String)
    (search_results_lists : List (List SearchItem))
    (enricher_responses : List (Id × Content))
    (phase_responses : List (List (Id × Content))) :
    ainvokeRun stableId query_limit target_ns search_results_lists
        enricher_responses phase_responses =
      ⟨sortResults search_results_lists query_limit stableId,
       (runFinalState stableId query_limit search_results_lists
         enricher_responses phase_responses).1,
       (runFinalState stableId query_limit search_results_lists
         enricher_responses phase_responses).2.1,
       (runFinalState stableId query_limit search_results_lists
         enricher_responses phase_responses).2.2,
       computePuts
         ((runFinalState stableId query_limit search_results_lists
            enricher_responses phase_responses).1 ++
          (runFinalState stableId query_limit search_results_lists
            enricher_responses phase_responses).2.1)
         (runFinalState stableId query_limit search_results_lists
           enricher_responses phase_responses).2.2
         (sortResults search_results_lists query_limit stableId) target_ns,
       computeDeletes
         (runFinalState stableId query_limit search_results_lists
           enricher_responses phase_responses).2.2
         (sortResults search_results_lists query_limit stableId)⟩ := rfl

/-- The list-level invariant holds of a run's final state. -/
theorem runFinalState_ListInv (stableId : List String → String → Id)
    (query_limit : Nat) (search_results_lists : List (List SearchItem))
    (enricher_responses : List (Id × Content))
    (phase_responses : List (List (Id × Content)))
    (hE : ∀ k ∈ dkeys (sortResults search_results_lists query_limit stableId),
      k ≠ "") :
    ListInv (sortResults search_results_lists query_limit stableId)
      (runFinalState stableId query_limit search_results_lists
        enricher_responses phase_responses).2.2
      (runFinalState stableId query_limit search_results_lists
        enricher_responses phase_responses).1
      (runFinalState stableId query_limit search_results_lists
        enricher_responses phase_responses).2.1 := by
  rw [runFinalState]
  refine foldl_induction _
    (fun acc : List Triple × List Triple × List Id =>
      ListInv (sortResults search_results_lists query_limit stableId)
        acc.2.2 acc.1 acc.2.1) _ _ ?_ ?_
  · exact applyEnricherOutput_ListInv _ hE
      (initial_ListInv (nodup_dkeys_sortResults _ _ _))
  · intro acc resp _ hacc
    exact applyEnricherOutput_ListInv _ hE hacc

theorem ainvokeRun_storeMap (stableId : List String → String → Id)
    (query_limit : Nat) (target_ns : List String)
    (lists : List (List SearchItem)) (p0 : List (Id × Content))
    (prs : List (List (Id × Content))) :
    (ainvokeRun stableId query_limit target_ns lists p0 prs).storeMap =
      sortResults lists query_limit stableId := rfl

theorem ainvokeRun_storeBased (stableId : List String → String → Id)
    (query_limit : Nat) (target_ns : List String)
    (lists : List (List SearchItem)) (p0 : List (Id × Content))
    (prs : List (List (Id × Content))) :
    (ainvokeRun stableId query_limit target_ns lists p0 prs).storeBased =
      (runFinalState stableId query_limit lists p0 prs).1 := rfl

theorem ainvokeRun_ephemeral (stableId : List String → String → Id)
    (query_limit : Nat) (target_ns : List String)
    (lists : List (List SearchItem)) (p0 : List (Id × Content))
    (prs : List (List (Id × Content))) :
    (ainvokeRun stableId query_limit target_ns lists p0 prs).ephemeral =
      (runFinalState stableId query_limit lists p0 prs).2.1 := rfl

theorem ainvokeRun_removedIds (stableId : List String → String → Id)
    (query_limit : Nat) (target_ns : List String)
    (lists : List (List SearchItem)) (p0 : List (Id × Content))
    (prs : List (List (Id × Content))) :
    (ainvokeRun stableId query_limit target_ns lists p0 prs).removedIds =
      (runFinalState stableId query_limit lists p0 prs).2.2 := rfl

theorem ainvokeRun_puts (stableId : List String → String → Id)
    (query_limit : Nat) (target_ns : List String)
    (lists : List (List SearchItem)) (p0 : List (Id × Content))
    (prs : List (List (Id × Content))) :
    (ainvokeRun stableId query_limit target_ns lists p0 prs).puts =
      computePuts
        ((runFinalState stableId query_limit lists p0 prs).1 ++
         (runFinalState stableId query_limit lists p0 prs).2.1)
        (runFinalState stableId query_limit lists p0 prs).2.2
        (sortResults lists query_limit stableId) target_ns := rfl

theorem ainvokeRun_deletes (stableId : List String → String → Id)
    (query_limit : Nat) (target_ns : List String)
    (lists : List (List SearchItem)) (p0 : List (Id × Content))
    (prs : List (List (Id × Content))) :
    (ainvokeRun stableId query_limit target_ns lists p0 prs).deletes =
      computeDeletes (runFinalState stableId query_limit lists p0 prs).2.2
        (sortResults lists query_limit stableId) := rfl

theorem applyStep_removed_sub {sm : List (Id × SearchItem)}
    {st : List (Id × Triple) × List (Id × Triple) × List Id}
    {op : Id × Content}
    (h : ∀ k ∈ st.2.2, k ∈ dkeys sm) :
    ∀ k ∈ (applyStep sm st op).2.2, k ∈ dkeys sm := by
  obtain ⟨j, c⟩ := op
  cases c with
  | model m =>
    by_cases hm : m.reprName = "RemoveDoc"
    · cases hid : m.jsonDocId with
      | none => rw [applyStep_removeDoc_none hm hid]; exact h
      | some rid =>
        rw [applyStep_removeDoc hm hid]
        intro k hk
        split at hk
        next hcond =>
          rcases List.mem_append.mp hk with hk | hk
          · exact h k hk
          · rw [List.mem_singleton] at hk
            subst hk
            exact dget?_isSome_iff.mp hcond.2
        next hcond => exact h k hk
    · by_cases hs : (dget? st.1 j).isSome
      · rw [applyStep_model_store hm hs]; exact h
      · rw [applyStep_model_eph hm (Option.not_isSome_iff_eq_none.mp hs)]; exact h
  | raw d =>
    cases hs : dget? st.1 j with
    | some t => rw [applyStep_raw_store hs]; exact h
    | none => rw [applyStep_raw_eph hs]; exact h

theorem applyEnricherOutput_removed_sub {ops : List (Id × Content)}
    {sb : List Triple} {sm : List (Id × SearchItem)} {eph : List Triple} :
    ∀ k ∈ (applyEnricherOutput ops sb sm eph).2.2, k ∈ dkeys sm := by
  rw [applyEnricherOutput_eq]
  exact foldl_induction (applyStep sm)
    (fun st : List (Id × Triple) × List (Id × Triple) × List Id =>
      ∀ k ∈ st.2.2, k ∈ dkeys sm) ops (toDict sb, toDict eph, [])
    (by simp) (fun st op _ hst => applyStep_removed_sub hst)

theorem runFinalState_removed_sub (stableId : List String → String → Id)
    (query_limit : Nat) (lists : List (List SearchItem))
    (p0 : List (Id × Content)) (prs : List (List (Id × Content))) :
    ∀ k ∈ (runFinalState stableId query_limit lists p0 prs).2.2,
      k ∈ dkeys (sortResults lists query_limit stableId) := by
  rw [runFinalState]
  refine foldl_induction _
    (fun acc : List Triple × List Triple × List Id =>
      ∀ k ∈ acc.2.2, k ∈ dkeys (sortResults lists query_limit stableId)) _ _ ?_ ?_
  · intro k hk
    rcases mem_sunion.mp hk with hk | hk
    · simp at hk
    · exact applyEnricherOutput_removed_sub k hk
  · intro acc resp _ hacc
    intro k hk
    rcases mem_sunion.mp hk with hk | hk
    · exact hacc k hk
    · exact applyEnricherOutput_removed_sub k hk

/-- C3: at the end of every run the persistence plan is exactly: one put per
surviving store-backed record whose `(kind, content)` changed, at its original
`(namespace, key)`; one put per surviving ephemeral record, in the target
namespace keyed by its id; and one delete per retired id, at that snapshot
entry's original `(namespace, key)` — every retired id is a snapshot id, so an
id deleted while only ephemeral produces no delete. -/
theorem claim3_persistence_plan (stableId : List String → String → Id)
    (query_limit : Nat) (target_ns : List String)
    (lists : List (List SearchItem)) (p0 : List (Id × Content))
    (prs : List (List (Id × Content))) (r : RunResult)
    (hr : r = ainvokeRun stableId query_limit target_ns lists p0 prs)
    (hE : ∀ p ∈ r.storeMap, p.1 ≠ "") :
    r.puts = (r.storeBased ++ r.ephemeral).filterMap
        (putFor r.storeMap r.removedIds target_ns) ∧
    (∀ t ∈ r.storeBased, t.1 ∉ r.removedIds ∧
      ∃ item, dget? r.storeMap t.1 = some item ∧
        putFor r.storeMap r.removedIds target_ns t =
          (if item.kind ≠ t.2.1 ∨ item.content ≠ t.2.2 then
            some ⟨item.ns, item.key, t.2.1, t.2.2⟩ else none)) ∧
    (∀ t ∈ r.ephemeral, t.1 ∉ r.removedIds →
      putFor r.storeMap r.removedIds target_ns t =
        some ⟨target_ns, t.1, t.2.1, t.2.2⟩) ∧
    r.deletes = r.removedIds.filterMap
      (fun sid => (dget? r.storeMap sid).map (fun art => (art.ns, art.key))) ∧
    (∀ sid ∈ r.removedIds, (dget? r.storeMap sid).isSome) := by
  subst hr
  rw [ainvokeRun_storeMap] at hE
  rw [ainvokeRun_puts, ainvokeRun_storeBased, ainvokeRun_ephemeral,
    ainvokeRun_removedIds, ainvokeRun_storeMap, ainvokeRun_deletes]
  have hEk : ∀ k ∈ dkeys (sortResults lists query_limit stableId), k ≠ "" := by
    intro k hk
    obtain ⟨p, hp, rfl⟩ := List.mem_map.mp hk
    exact hE p hp
  have hInv := runFinalState_ListInv stableId query_limit lists p0 prs hEk
  refine ⟨computePuts_eq_filterMap _ _ _ _, ?_, ?_, computeDeletes_eq_filterMap _ _, ?_⟩
  · intro t ht
    have h1 := hInv.sbFresh t ht
    have h2 := hInv.sbSub t ht
    obtain ⟨item, hitem⟩ := Option.isSome_iff_exists.mp (dget?_isSome_iff.mpr h2)
    refine ⟨h1, item, hitem, ?_⟩
    unfold putFor
    rw [if_neg h1, hitem]
  · intro t ht hnr
    have hnone : dget? (sortResults lists query_limit stableId) t.1 = none := by
      rw [dget?_eq_none_iff]
      intro hmem
      exact hnr (hInv.cover t.1 hmem
        (fun u hu he => hInv.disj t ht u hu he.symm))
    unfold putFor
    rw [if_neg hnr, hnone]
  · intro sid hs
    exact dget?_isSome_iff.mpr
      (runFinalState_removed_sub stableId query_limit lists p0 prs sid hs)

/-- Witness for `claim3_persistence_plan`: a run over a one-entry store in
which the extractor deletes the store-backed record and inserts a fresh one. -/
theorem claim3_persistence_plan_witness :
    ∃ r : RunResult,
      r = ainvokeRun (fun ns k => String.intercalate "/" ns ++ "/" ++ k) 5
        ["m", "u"]
        [[⟨["m"], "ka", "Memory", "a", some (9/10)⟩]]
        [("m/ka", Content.model ⟨"RemoveDoc", some "m/ka", ""⟩),
         ("e1", Content.model ⟨"Memory", none, "fresh"⟩)] [] ∧
      (∀ p ∈ r.storeMap, p.1 ≠ "") ∧
      r.puts = (r.storeBased ++ r.ephemeral).filterMap
        (putFor r.storeMap r.removedIds ["m", "u"]) := by
  refine ⟨_, rfl, by decide, ?_⟩
  exact (claim3_persistence_plan _ 5 ["m", "u"] _ _ _ _ rfl (by decide)).1

/-! ### No-op runs (C7) -/

/-- When no existing id occurs among the results, the merge loop of
`MemoryEnricher` appends a raw pass-through operation for every existing
record, in order. -/
theorem mergeUnreferenced_all_fresh {rs : List (Id × Content)} {l : List Triple}
    (hfresh : ∀ t ∈ l, ∀ r ∈ rs, r.1 ≠ t.1)
    (hnd : (l.map (fun t : Triple => t.1)).Nodup) :
    mergeUnreferenced rs l = rs ++ l.map (fun t => (t.1, Content.raw t.2.2)) := by
  induction l generalizing rs with
  | nil => simp [mergeUnreferenced]
  | cons t ts ih =>
    simp only [List.map_cons, List.nodup_cons] at hnd
    have hany : rs.any (fun r => r.1 = t.1) = false := by
      rw [List.any_eq_false]
      intro r hr
      simpa using hfresh t (List.mem_cons_self t ts) r hr
    have hstep : mergeUnreferenced rs (t :: ts) =
        mergeUnreferenced
          (if rs.any (fun r => r.1 = t.1) then rs
            else rs ++ [(t.1, Content.raw t.2.2)]) ts := rfl
    rw [hstep, if_neg (by simp [hany]), ih]
    · simp
    · intro u hu r hr
      rcases List.mem_append.mp hr with hr | hr
      · exact hfresh u (List.mem_cons_of_mem t hu) r hr
      · rw [List.mem_singleton] at hr
        subst hr
        intro he
        exact hnd.1 (he ▸ List.mem_map.mpr ⟨u, hu, rfl⟩)
    · exact hnd.2

theorem phaseFold_eq (sm : List (Id × SearchItem))
    (acc : List Triple × List Triple × List Id) (resp : List (Id × Content)) :
    phaseFold sm acc resp =
      ((applyEnricherOutput (mergeUnreferenced resp (acc.1 ++ acc.2.1))
         acc.1 sm acc.2.1).1,
       (applyEnricherOutput (mergeUnreferenced resp (acc.1 ++ acc.2.1))
         acc.1 sm acc.2.1).2.1,
       sunion acc.2.2
         (applyEnricherOutput (mergeUnreferenced resp (acc.1 ++ acc.2.1))
           acc.1 sm acc.2.1).2.2) := rfl

/-- A merge call whose only operations are the pass-through re-proposals of
the current store-backed records is a no-op. -/
theorem applyEnricherOutput_noop {sb : List Triple} {sm : List (Id × SearchItem)}
    (hnd : (sb.map (fun t : Triple => t.1)).Nodup) :
    applyEnricherOutput (mergeUnreferenced [] sb) sb sm [] = (sb, [], []) := by
  have hmu : mergeUnreferenced [] sb =
      sb.map (fun t => (t.1, Content.raw t.2.2)) := by
    simpa using @mergeUnreferenced_all_fresh [] sb (by simp) hnd
  rw [hmu, applyEnricherOutput_eq]
  have htd : toDict ([] : List Triple) = [] := rfl
  have hfix : (sb.map (fun t => (t.1, Content.raw t.2.2))).foldl (applyStep sm)
      (toDict sb, toDict [], []) = (toDict sb, [], []) := by
    rw [htd]
    refine foldl_induction (applyStep sm)
      (fun st : List (Id × Triple) × List (Id × Triple) × List Id =>
        st = (toDict sb, [], [])) _ _ rfl ?_
    intro st op hop hst
    subst hst
    obtain ⟨t, ht, rfl⟩ := List.mem_map.mp hop
    rw [applyStep_raw_store (dget?_toDict_of_mem hnd ht)]
    rw [dinsert_self_of_mem (by rw [dkeys_toDict hnd]; exact hnd)
      (by rw [toDict_eq_map hnd]; exact List.mem_map.mpr ⟨t, ht, rfl⟩)]
  rw [hfix]
  simp [toDict_snd hnd]

/-- C7: a run in which the extractor proposes no operations — neither in the
primary enrichment nor in any refinement phase — issues no puts and no
deletes, leaving the store snapshot unchanged. -/
theorem claim7_noop_run_empty_plan (stableId : List String → String → Id)
    (query_limit : Nat) (target_ns : List String)
    (lists : List (List SearchItem)) (n : Nat) :
    (ainvokeRun stableId query_limit target_ns lists []
      (List.replicate n [])).puts = [] ∧
    (ainvokeRun stableId query_limit target_ns lists []
      (List.replicate n [])).deletes = [] := by
  have hndk := nodup_dkeys_sortResults lists query_limit stableId
  have hids : ((sortResults lists query_limit stableId).map
      (fun p => (p.1, p.2.kind, p.2.content))).map (fun t : Triple => t.1) =
      dkeys (sortResults lists query_limit stableId) := by
    rw [List.map_map]
    rfl
  have hnd : (((sortResults lists query_limit stableId).map
      (fun p => (p.1, p.2.kind, p.2.content))).map (fun t : Triple => t.1)).Nodup := by
    rw [hids]
    exact hndk
  have hfin : runFinalState stableId query_limit lists [] (List.replicate n []) =
      ((sortResults lists query_limit stableId).map
        (fun p => (p.1, p.2.kind, p.2.content)), [], []) := by
    rw [runFinalState]
    have h0 := @applyEnricherOutput_noop _
      (sortResults lists query_limit stableId) hnd
    rw [h0]
    refine foldl_induction (phaseFold (sortResults lists query_limit stableId))
      (fun st : List Triple × List Triple × List Id =>
        st = ((sortResults lists query_limit stableId).map
          (fun p => (p.1, p.2.kind, p.2.content)), [], [])) _ _ rfl ?_
    intro st resp hresp hst
    subst hst
    have hresp0 : resp = [] := List.eq_of_mem_replicate hresp
    subst hresp0
    rw [phaseFold_eq]
    simp only [List.append_nil]
    rw [h0]
    rfl
  refine ⟨?_, ?_⟩
  · rw [ainvokeRun_puts, hfin]
    simp only [List.append_nil]
    rw [computePuts_eq_filterMap, List.filterMap_eq_nil_iff]
    intro t ht
    obtain ⟨p, hp, rfl⟩ := List.mem_map.mp ht
    unfold putFor
    rw [if_neg (by simp)]
    rw [mem_dget? hndk (show (p.1, p.2) ∈ _ from hp)]
    simp
  · rw [ainvokeRun_deletes, hfin]
    rfl

/-! ### C8: the synchronous and asynchronous paths agree -/

/-- C8: for identical inputs — the same search results returned by the store
and the same extractor responses in every phase — `invoke` and `ainvoke`
compute identical store maps, record sets, removed ids, puts and deletes,
and return the same list of puts.  The two source methods differ only in I/O
dispatch (`asyncio.gather` vs. executor futures), which lies outside the
pure core; their pure cores are transcribed independently as `ainvokeRun`
and `invokeRun` and are definitionally equal. -/
theorem claim8_invoke_ainvoke_agree (stableId : List String → String → Id)
    (query_limit : Nat) (target_ns : List String)
    (lists : List (List SearchItem)) (p0 : List (Id × Content))
    (prs : List (List (Id × Content))) :
    ainvokeRun stableId query_limit target_ns lists p0 prs =
      invokeRun stableId query_limit target_ns lists p0 prs := rfl

/-! ### C9: dangling ids are silently inserted -/

/-- C9: a non-delete operation whose id matches neither a store-backed nor an
ephemeral record does not fail: the merge engine (a total function) creates a
new ephemeral record under that id — with the payload's declared kind for a
structured payload, and the default `"Memory"` kind for a raw payload — and
leaves everything else unchanged. -/
theorem claim9_dangling_id_silent_insert (sm : List (Id × SearchItem))
    (sb eph : List Triple) (i : Id) (c : Content)
    (hnd1 : (sb.map (fun t : Triple => t.1)).Nodup)
    (hnd2 : (eph.map (fun t : Triple => t.1)).Nodup)
    (hdel : ∀ m, c = Content.model m → m.reprName ≠ "RemoveDoc")
    (hsb : ∀ t ∈ sb, t.1 ≠ i) (heph : ∀ t ∈ eph, t.1 ≠ i) :
    applyEnricherOutput [(i, c)] sb sm eph =
      (sb, eph ++ [(i,
        match c with
        | Content.model m => m.reprName
        | Content.raw _ => "Memory",
        match c with
        | Content.model m => m.dump
        | Content.raw d => d)], []) := by
  have hnone : dget? (toDict sb) i = none := dget?_toDict_eq_none hsb
  have hnoneE : i ∉ dkeys (toDict eph) :=
    dget?_eq_none_iff.mp (dget?_toDict_eq_none heph)
  cases c with
  | model m =>
    rw [applyEnricherOutput_eq, List.foldl_cons, List.foldl_nil,
      applyStep_model_eph (hdel m rfl) hnone, dinsert_of_not_mem hnoneE]
    simp [toDict_snd hnd1, toDict_snd hnd2]
  | raw d =>
    rw [applyEnricherOutput_eq, List.foldl_cons, List.foldl_nil,
      applyStep_raw_eph hnone, dinsert_of_not_mem hnoneE]
    simp [toDict_snd hnd1, toDict_snd hnd2]

/-- Witness for `claim9_dangling_id_silent_insert`. -/
theorem claim9_dangling_id_silent_insert_witness :
    applyEnricherOutput [("n1", Content.raw "data")] [("s1", "Memory", "a")] []
      [("p1", "Preference", "b")] =
      ([("s1", "Memory", "a")],
       [("p1", "Preference", "b"), ("n1", "Memory", "data")], []) :=
  claim9_dangling_id_silent_insert [] [("s1", "Memory", "a")]
    [("p1", "Preference", "b")] "n1" (Content.raw "data")
    (by decide) (by decide) (fun m h => Content.noConfusion h)
    (by decide) (by decide)

/-! ### C4: kind determination for non-delete operations -/

/-- C4 counterexample: an unstructured (raw) update whose id matches a prior
*ephemeral* record of kind `"Preference"` does not carry that kind over — the
record is rewritten with the default `"Memory"` kind, because the source
consults only the store-backed dict when resolving the kind. -/
theorem claim4_counterexample :
    (applyEnricherOutput [("e1", Content.raw "c2")] [] []
      [("e1", "Preference", "c1")]).2.1 = [("e1", "Memory", "c2")] := by decide

/-- C4 (amended): processing a non-delete operation, the kind is the payload's
declared type when the payload is structured; for an unstructured payload it
is carried over from the prior *store-backed* record with that id when one
exists, and otherwise — including when a prior ephemeral record with that id
exists — defaults to the generic `"Memory"` kind. -/
theorem claim4_kind_resolution (sm : List (Id × SearchItem))
    (st : List (Id × Triple) × List (Id × Triple) × List Id) (i : Id) :
    (∀ m : PModel, m.reprName ≠ "RemoveDoc" →
      ((dget? st.1 i).isSome →
        dget? (applyStep sm st (i, Content.model m)).1 i =
          some (i, m.reprName, m.dump)) ∧
      (dget? st.1 i = none →
        dget? (applyStep sm st (i, Content.model m)).2.1 i =
          some (i, m.reprName, m.dump))) ∧
    (∀ (d : String) (t : Triple), dget? st.1 i = some t →
      dget? (applyStep sm st (i, Content.raw d)).1 i = some (i, t.2.1, d)) ∧
    (∀ d : String, dget? st.1 i = none →
      dget? (applyStep sm st (i, Content.raw d)).2.1 i = some (i, "Memory", d)) := by
  refine ⟨fun m hm => ⟨fun hs => ?_, fun hs => ?_⟩,
    fun d t hs => ?_, fun d hs => ?_⟩
  · rw [applyStep_model_store hm hs]
    exact dget?_dinsert_self
  · rw [applyStep_model_eph hm hs]
    exact dget?_dinsert_self
  · rw [applyStep_raw_store hs]
    exact dget?_dinsert_self
  · rw [applyStep_raw_eph hs]
    exact dget?_dinsert_self

/-- Witness for `claim4_kind_resolution`: a raw update of an id with no
store-backed record but a prior ephemeral record of kind `"Preference"`
yields the default `"Memory"` kind. -/
theorem claim4_kind_resolution_witness :
    dget? (applyStep [] ([], [("e1", ("e1", "Preference", "c1"))], [])
      ("e1", Content.raw "c2")).2.1 "e1" = some ("e1", "Memory", "c2") :=
  (claim4_kind_resolution [] ([], [("e1", ("e1", "Preference", "c1"))], [])
    "e1").2.2 "c2" rfl

/-! ### C2 and C1: delete precedence and retirement -/

theorem foldl_applyStep_sd_keys {sm : List (Id × SearchItem)}
    {ops : List (Id × Content)}
    {st : List (Id × Triple) × List (Id × Triple) × List Id} {k : Id}
    (h : k ∈ dkeys ((ops.foldl (applyStep sm) st).1)) : k ∈ dkeys st.1 := by
  induction ops generalizing st with
  | nil => exact h
  | cons op ops ih =>
    exact applyStep_sd_keys_subset (ih (by rwa [List.foldl_cons] at h))

theorem putFor_none_of_removed {sm : List (Id × SearchItem)} {R : List Id}
    {tns : List String} {t : Triple} (h : t.1 ∈ R) :
    putFor sm R tns t = none := by
  unfold putFor
  rw [if_pos h]

theorem filterMap_filter_eq {γ δ : Type _} {f : γ → Option δ} {p : γ → Bool}
    {l : List γ} (h : ∀ x ∈ l, p x = false → f x = none) :
    l.filterMap f = (l.filter p).filterMap f := by
  induction l with
  | nil => rfl
  | cons x xs ih =>
    have ih' := ih (fun y hy => h y (List.mem_cons_of_mem x hy))
    by_cases hp : p x = true
    · rw [List.filter_cons_of_pos hp, List.filterMap_cons, List.filterMap_cons, ih']
    · have hn : f x = none := h x (List.mem_cons_self x xs)
        (Bool.eq_false_iff.mpr hp)
      rw [List.filter_cons_of_neg hp, List.filterMap_cons, hn, ih']

/-- C2 counterexample: within a single phase the extractor deletes id `e1`
and then (later in the same operation list) updates `e1`.  The claimed net
effect is deletion; instead the record survives in the phase's ephemeral
output and produces a put. -/
theorem claim2_counterexample :
    (ainvokeRun (fun _ _ => "z") 5 ["m", "u"] []
      [("e1", Content.model ⟨"RemoveDoc", some "e1", ""⟩),
       ("e1", Content.model ⟨"Memory", none, "c"⟩)] []).ephemeral =
      [("e1", "Memory", "c")] ∧
    (ainvokeRun (fun _ _ => "z") 5 ["m", "u"] []
      [("e1", Content.model ⟨"RemoveDoc", some "e1", ""⟩),
       ("e1", Content.model ⟨"Memory", none, "c"⟩)] []).puts =
      [⟨["m", "u"], "e1", "Memory", "c"⟩] := by decide

/-- C2 (amended): delete wins only against operations *before* it in the
phase's operation list.  (1) When the delete is the last operation naming an
id — in particular when an update precedes it — the id is absent from both
output record sets, and is retired when it was a non-empty store-map key.
(2) When an update follows the delete within the same phase, the update
re-creates the record: for a raw payload it reappears in the ephemeral output
with the default `"Memory"` kind. -/
theorem claim2_delete_update_same_phase :
    (∀ (sm : List (Id × SearchItem)) (sb eph : List Triple)
        (l₁ l₂ : List (Id × Content)) (j i : Id) (m : PModel),
      m.reprName = "RemoveDoc" → m.jsonDocId = some i →
      (∀ op ∈ l₂, touches op i = false) →
      (∀ t ∈ (applyEnricherOutput (l₁ ++ (j, Content.model m) :: l₂) sb sm eph).1,
        t.1 ≠ i) ∧
      (∀ t ∈ (applyEnricherOutput (l₁ ++ (j, Content.model m) :: l₂) sb sm eph).2.1,
        t.1 ≠ i) ∧
      (i ≠ "" → i ∈ dkeys sm →
        i ∈ (applyEnricherOutput (l₁ ++ (j, Content.model m) :: l₂) sb sm eph).2.2)) ∧
    (∀ (sm : List (Id × SearchItem)) (sb eph : List Triple)
        (g₁ g₂ g₃ : List (Id × Content)) (j i : Id) (m : PModel) (d : String),
      m.reprName = "RemoveDoc" → m.jsonDocId = some i →
      (∀ op ∈ g₃, touches op i = false) →
      (i, "Memory", d) ∈ (applyEnricherOutput
        (g₁ ++ (j, Content.model m) :: g₂ ++ (i, Content.raw d) :: g₃)
        sb sm eph).2.1) := by
  constructor
  · intro sm sb eph l₁ l₂ j i m hm hid hl₂
    exact applyEnricherOutput_removeDoc_absent hm hid hl₂
  · intro sm sb eph g₁ g₂ g₃ j i m d hm hid hg₃
    rw [applyEnricherOutput_eq, List.foldl_append, List.foldl_cons,
      List.foldl_append, List.foldl_cons]
    have hnone : dget? ((g₂.foldl (applyStep sm)
        (applyStep sm (g₁.foldl (applyStep sm) (toDict sb, toDict eph, []))
          (j, Content.model m))).1) i = none := by
      rw [dget?_eq_none_iff]
      intro hmem
      have h1 := foldl_applyStep_sd_keys hmem
      rw [applyStep_removeDoc hm hid] at h1
      rw [dkeys_dpop] at h1
      have h2 := List.of_mem_filter h1
      simp at h2
    rw [applyStep_raw_eph hnone]
    have hu := @foldl_applyStep_untouched sm g₃ i hg₃
      ((g₂.foldl (applyStep sm)
        (applyStep sm (g₁.foldl (applyStep sm) (toDict sb, toDict eph, []))
          (j, Content.model m))).1,
       dinsert (g₂.foldl (applyStep sm)
        (applyStep sm (g₁.foldl (applyStep sm) (toDict sb, toDict eph, []))
          (j, Content.model m))).2.1 i (i, "Memory", d),
       (g₂.foldl (applyStep sm)
        (applyStep sm (g₁.foldl (applyStep sm) (toDict sb, toDict eph, []))
          (j, Content.model m))).2.2)
    have hbind := hu.2.1.trans dget?_dinsert_self
    exact List.mem_map.mpr ⟨(i, (i, "Memory", d)), dget?_mem hbind, rfl⟩

/-- Witness for `claim2_delete_update_same_phase`: update-then-delete of
`e1` leaves no `e1` record; delete-then-update re-creates it. -/
theorem claim2_delete_update_same_phase_witness :
    (("e1", "Memory", "c") : Triple) ∉
      (applyEnricherOutput
        [("e1", Content.model ⟨"Memory", none, "c"⟩),
         ("e1", Content.model ⟨"RemoveDoc", some "e1", ""⟩)] [] [] []).2.1 ∧
    (("e1", "Memory", "c") : Triple) ∈
      (applyEnricherOutput
        [("e1", Content.model ⟨"RemoveDoc", some "e1", ""⟩),
         ("e1", Content.raw "c")] [] [] []).2.1 := by
  constructor
  · intro hmem
    exact (claim2_delete_update_same_phase.1 [] [] []
      [("e1", Content.model ⟨"Memory", none, "c"⟩)] [] "e1" "e1"
      ⟨"RemoveDoc", some "e1", ""⟩ rfl rfl (by simp)).2.1
      ("e1", "Memory", "c") hmem rfl
  · exact claim2_delete_update_same_phase.2 [] [] [] [] [] [] "e1" "e1"
      ⟨"RemoveDoc", some "e1", ""⟩ "c" rfl rfl (by simp)

/-- C1 counterexample: phase 0 inserts the ephemeral record `e1`; phase 1
deletes it; phase 2 reuses the literal id `e1` for new content.  The claim
says a deleted id — store-backed *or ephemeral* — never produces a put even
if a later phase reuses it, but a put for `e1` is issued (the ephemeral
deletion is not recorded in `removed_ids`, so nothing filters the reuse). -/
theorem claim1_counterexample :
    (ainvokeRun (fun _ _ => "z") 5 ["m", "u"] []
      [("e1", Content.model ⟨"Memory", none, "c0"⟩)]
      [[("e1", Content.model ⟨"RemoveDoc", some "e1", ""⟩)],
       [("e1", Content.model ⟨"Memory", none, "c2"⟩)]]).puts =
      [⟨["m", "u"], "e1", "Memory", "c2"⟩] ∧
    (ainvokeRun (fun _ _ => "z") 5 ["m", "u"] []
      [("e1", Content.model ⟨"Memory", none, "c0"⟩)]
      [[("e1", Content.model ⟨"RemoveDoc", some "e1", ""⟩)],
       [("e1", Content.model ⟨"Memory", none, "c2"⟩)]]).removedIds = [] := by decide

/-- C1 (amended): a delete operation removes the id from both working sets
at the point it is processed — when no later operation of the same merge call
touches the id, it is absent from both of the call's output record sets and
hence from the next phase's candidate context.  A *retired* id (recorded in
`removed_ids`, which happens exactly for non-empty store-backed ids) produces
no put for the rest of the run even if a later phase's output reuses that id:
the final puts are computed entirely from records with other ids.  A deleted
ephemeral id is not retired, and its reuse produces an ordinary ephemeral
put (see the counterexample). -/
theorem claim1_retirement :
    (∀ (sm : List (Id × SearchItem)) (sb eph : List Triple)
        (l₁ l₂ : List (Id × Content)) (j rid : Id) (m : PModel),
      m.reprName = "RemoveDoc" → m.jsonDocId = some rid →
      (∀ op ∈ l₂, touches op rid = false) →
      (∀ t ∈ (applyEnricherOutput (l₁ ++ (j, Content.model m) :: l₂) sb sm eph).1,
        t.1 ≠ rid) ∧
      (∀ t ∈ (applyEnricherOutput (l₁ ++ (j, Content.model m) :: l₂) sb sm eph).2.1,
        t.1 ≠ rid)) ∧
    (∀ (stableId : List String → String → Id) (query_limit : Nat)
        (target_ns : List String) (lists : List (List SearchItem))
        (p0 : List (Id × Content)) (prs : List (List (Id × Content))) (rid : Id),
      rid ∈ (ainvokeRun stableId query_limit target_ns lists p0 prs).removedIds →
      (ainvokeRun stableId query_limit target_ns lists p0 prs).puts =
        (((ainvokeRun stableId query_limit target_ns lists p0 prs).storeBased ++
          (ainvokeRun stableId query_limit target_ns lists p0 prs).ephemeral).filter
          (fun t => t.1 ≠ rid)).filterMap
          (putFor (ainvokeRun stableId query_limit target_ns lists p0 prs).storeMap
            (ainvokeRun stableId query_limit target_ns lists p0 prs).removedIds
            target_ns)) := by
  constructor
  · intro sm sb eph l₁ l₂ j rid m hm hid hl₂
    exact ⟨(applyEnricherOutput_removeDoc_absent hm hid hl₂).1,
      (applyEnricherOutput_removeDoc_absent hm hid hl₂).2.1⟩
  · intro stableId query_limit target_ns lists p0 prs rid hrid
    rw [ainvokeRun_removedIds] at hrid
    rw [ainvokeRun_puts, ainvokeRun_storeBased, ainvokeRun_ephemeral,
      ainvokeRun_removedIds, ainvokeRun_storeMap, computePuts_eq_filterMap]
    apply filterMap_filter_eq
    intro t ht hfalse
    have hti : t.1 = rid := by simpa using hfalse
    exact putFor_none_of_removed (by rw [hti]; exact hrid)

/-- Witness for `claim1_retirement`: a deleted ephemeral id is gone from the
phase output; retiring a store-backed id makes the final puts independent of
records carrying it. -/
theorem claim1_retirement_witness :
    (("x1", "Memory", "c") : Triple) ∉
      (applyEnricherOutput [("x1", Content.model ⟨"RemoveDoc", some "x1", ""⟩)]
        [] [] [("x1", "Memory", "c")]).2.1 ∧
    (ainvokeRun (fun ns k => String.intercalate "/" ns ++ "/" ++ k) 5 ["m", "u"]
      [[⟨["m"], "ka", "Memory", "a", some (9/10)⟩]]
      [("m/ka", Content.model ⟨"RemoveDoc", some "m/ka", ""⟩),
       ("e1", Content.model ⟨"Memory", none, "fresh2"⟩)] []).puts =
      (((ainvokeRun (fun ns k => String.intercalate "/" ns ++ "/" ++ k) 5 ["m", "u"]
        [[⟨["m"], "ka", "Memory", "a", some (9/10)⟩]]
        [("m/ka", Content.model ⟨"RemoveDoc", some "m/ka", ""⟩),
         ("e1", Content.model ⟨"Memory", none, "fresh2"⟩)] []).storeBased ++
        (ainvokeRun (fun ns k => String.intercalate "/" ns ++ "/" ++ k) 5 ["m", "u"]
        [[⟨["m"], "ka", "Memory", "a", some (9/10)⟩]]
        [("m/ka", Content.model ⟨"RemoveDoc", some "m/ka", ""⟩),
         ("e1", Content.model ⟨"Memory", none, "fresh2"⟩)] []).ephemeral).filter
        (fun t => t.1 ≠ "m/ka")).filterMap
        (putFor (ainvokeRun (fun ns k => String.intercalate "/" ns ++ "/" ++ k) 5
          ["m", "u"]
          [[⟨["m"], "ka", "Memory", "a", some (9/10)⟩]]
          [("m/ka", Content.model ⟨"RemoveDoc", some "m/ka", ""⟩),
           ("e1", Content.model ⟨"Memory", none, "fresh2"⟩)] []).storeMap
          (ainvokeRun (fun ns k => String.intercalate "/" ns ++ "/" ++ k) 5
          ["m", "u"]
          [[⟨["m"], "ka", "Memory", "a", some (9/10)⟩]]
          [("m/ka", Content.model ⟨"RemoveDoc", some "m/ka", ""⟩),
           ("e1", Content.model ⟨"Memory", none, "fresh2"⟩)] []).removedIds
          ["m", "u"]) := by
  constructor
  · intro hmem
    have h := claim1_retirement.1 [] [] [("x1", "Memory", "c")] [] [] "x1" "x1"
      ⟨"RemoveDoc", some "x1", ""⟩ rfl rfl (by simp)
    exact h.2 ("x1", "Memory", "c") hmem rfl
  · exact claim1_retirement.2 (fun ns k => String.intercalate "/" ns ++ "/" ++ k)
      5 ["m", "u"] [[⟨["m"], "ka", "Memory", "a", some (9/10)⟩]]
      [("m/ka", Content.model ⟨"RemoveDoc", some "m/ka", ""⟩),
       ("e1", Content.model ⟨"Memory", none, "fresh2"⟩)] [] "m/ka" (by decide)

/-! ### C5: search aggregation -/

theorem nodup_dkeys_dedup (lists : List (List SearchItem)) :
    (dkeys (dedupByNsKey lists)).Nodup := by
  rw [dedupByNsKey]
  refine foldl_induction _
    (fun d : List ((List String × String) × SearchItem) => (dkeys d).Nodup)
    _ [] (by simp [dkeys]) ?_
  intro d results _ hd
  exact foldl_induction _
    (fun d : List ((List String × String) × SearchItem) => (dkeys d).Nodup)
    results d hd (fun d item _ h => nodup_dkeys_dinsert h)

theorem foldl_dinsert_keyfn_fresh {α γ : Type _} [DecidableEq α] {key : γ → α} :
    ∀ {items : List γ} {d : List (α × γ)},
    (∀ it ∈ items, key it ∉ dkeys d) → ((items.map key).Nodup) →
    items.foldl (fun d item => dinsert d (key item) item) d =
      d ++ items.map (fun it => (key it, it)) := by
  intro items
  induction items with
  | nil => intro d _ _; simp
  | cons it its ih =>
    intro d hd hnd
    simp only [List.map_cons, List.nodup_cons] at hnd
    rw [List.foldl_cons, dinsert_of_not_mem (hd it (List.mem_cons_self it its)), ih]
    · simp
    · intro u hu
      rw [show dkeys (d ++ [(key it, it)]) = dkeys d ++ [key it] from by simp [dkeys]]
      simp only [List.mem_append, List.mem_singleton]
      push_neg
      refine ⟨hd u (List.mem_cons_of_mem it hu), fun he => hnd.1 ?_⟩
      rw [← he]
      exact List.mem_map.mpr ⟨u, hu, rfl⟩
    · exact hnd.2

/-- C5: the search aggregator merges results keyed by `(namespace, key)` so
duplicates collapse to one entry, sorts the deduplicated entries by score
descending with a missing score lowest, truncates to the limit, and assigns
each surviving entry its stable id; concretely, with entries scored 0.9 and
0.7 and a limit of 1, only the 0.9 entry survives. -/
theorem claim5_search_aggregation :
    (∀ (lists : List (List SearchItem)) (query_limit : Nat)
        (stableId : List String → String → Id),
      (dkeys (dedupByNsKey lists)).Nodup ∧
      (sortedTruncated lists query_limit).Pairwise
        (fun a b => scoreVal b ≤ scoreVal a) ∧
      (sortedTruncated lists query_limit).length ≤ query_limit ∧
      (∀ p ∈ sortResults lists query_limit stableId,
        p.1 = stableId p.2.ns p.2.key) ∧
      (((sortedTruncated lists query_limit).map
          (fun it => stableId it.ns it.key)).Nodup →
        sortResults lists query_limit stableId =
          (sortedTruncated lists query_limit).map
            (fun it => (stableId it.ns it.key, it)))) ∧
    sortResults
        [[⟨["m"], "kb", "Memory", "b", some (Rat.mk' 7 10 (by decide) (by decide))⟩,
          ⟨["m"], "ka", "Memory", "a", some (Rat.mk' 9 10 (by decide) (by decide))⟩]] 1
        (fun ns k => String.intercalate "/" ns ++ "/" ++ k) =
      [("m/ka", ⟨["m"], "ka", "Memory", "a", some (Rat.mk' 9 10 (by decide) (by decide))⟩)] := by
  refine ⟨fun lists query_limit stableId => ⟨nodup_dkeys_dedup lists, ?_, ?_, ?_, ?_⟩,
    by decide⟩
  · haveI hto : IsTotal SearchItem (fun a b => scoreVal b ≤ scoreVal a) :=
      ⟨fun a b => le_total (scoreVal b) (scoreVal a)⟩
    haveI htr : IsTrans SearchItem (fun a b => scoreVal b ≤ scoreVal a) :=
      ⟨fun a b c hab hbc => le_trans hbc hab⟩
    rw [sortedTruncated]
    exact List.Pairwise.sublist (List.take_sublist _ _)
      (List.sorted_insertionSort _ _)
  · rw [sortedTruncated, List.length_take]
    exact min_le_left _ _
  · rw [sortResults]
    refine foldl_induction _
      (fun d : List (Id × SearchItem) =>
        ∀ p ∈ d, p.1 = stableId p.2.ns p.2.key) _ [] (by simp) ?_
    intro d item _ hd p hp
    rcases mem_dinsert hp with rfl | ⟨hp', _⟩
    · rfl
    · exact hd p hp'
  · intro hnd
    rw [sortResults, foldl_dinsert_keyfn_fresh (by simp [dkeys]) hnd,
      List.nil_append]

/-- Witness for `claim5_search_aggregation`: with distinct stable ids the
aggregator output is exactly the sorted, truncated, id-tagged entry list. -/
theorem claim5_search_aggregation_witness :
    sortResults
        [[⟨["m"], "kb", "Memory", "b", some (Rat.mk' 7 10 (by decide) (by decide))⟩],
         [⟨["m"], "ka", "Memory", "a", some (Rat.mk' 9 10 (by decide) (by decide))⟩]] 2
        (fun ns k => String.intercalate "/" ns ++ "/" ++ k) =
      (sortedTruncated
        [[⟨["m"], "kb", "Memory", "b", some (Rat.mk' 7 10 (by decide) (by decide))⟩],
         [⟨["m"], "ka", "Memory", "a", some (Rat.mk' 9 10 (by decide) (by decide))⟩]] 2).map
        (fun it =>
          ((fun (ns : List String) (k : String) =>
            String.intercalate "/" ns ++ "/" ++ k) it.ns it.key, it)) :=
  (claim5_search_aggregation.1 _ 2 _).2.2.2.2 (by decide)

/-! ### C6: untouched and identically re-proposed store records -/

theorem nodup_dkeys_toDict (l : List Triple) : (dkeys (toDict l)).Nodup := by
  rw [toDict]
  exact foldl_induction _ (fun d : List (Id × Triple) => (dkeys d).Nodup) _ []
    (by simp [dkeys]) (fun d t _ h => nodup_dkeys_dinsert h)

theorem applyStep_nodup {sm : List (Id × SearchItem)}
    {st : List (Id × Triple) × List (Id × Triple) × List Id} {op : Id × Content}
    (h1 : (dkeys st.1).Nodup) (h2 : (dkeys st.2.1).Nodup) :
    (dkeys (applyStep sm st op).1).Nodup ∧
    (dkeys (applyStep sm st op).2.1).Nodup := by
  obtain ⟨j, c⟩ := op
  cases c with
  | model m =>
    by_cases hm : m.reprName = "RemoveDoc"
    · cases hid : m.jsonDocId with
      | none => rw [applyStep_removeDoc_none hm hid]; exact ⟨h1, h2⟩
      | some rid =>
        rw [applyStep_removeDoc hm hid]
        exact ⟨nodup_dkeys_dpop h1, nodup_dkeys_dpop h2⟩
    · by_cases hs : (dget? st.1 j).isSome
      · rw [applyStep_model_store hm hs]
        exact ⟨nodup_dkeys_dinsert h1, h2⟩
      · rw [applyStep_model_eph hm (Option.not_isSome_iff_eq_none.mp hs)]
        exact ⟨h1, nodup_dkeys_dinsert h2⟩
  | raw d =>
    cases hs : dget? st.1 j with
    | some t =>
      rw [applyStep_raw_store hs]
      exact ⟨nodup_dkeys_dinsert h1, h2⟩
    | none =>
      rw [applyStep_raw_eph hs]
      exact ⟨h1, nodup_dkeys_dinsert h2⟩

/-- A safe operation preserves the original binding of `sid` in the store
dict, keeps `sid` out of the ephemeral dict, and never removes `sid`. -/
theorem applyStep_safe {sm : List (Id × SearchItem)} {sid : Id} {k₀ c₀ : String}
    {st : List (Id × Triple) × List (Id × Triple) × List Id} {op : Id × Content}
    (hop : SafeFor sid k₀ c₀ op = true)
    (h1 : dget? st.1 sid = some (sid, k₀, c₀))
    (h2 : dget? st.2.1 sid = none) (h3 : sid ∉ st.2.2) :
    dget? (applyStep sm st op).1 sid = some (sid, k₀, c₀) ∧
    dget? (applyStep sm st op).2.1 sid = none ∧
    sid ∉ (applyStep sm st op).2.2 := by
  obtain ⟨j, c⟩ := op
  cases c with
  | model m =>
    by_cases hm : m.reprName = "RemoveDoc"
    · cases hid : m.jsonDocId with
      | none => rw [applyStep_removeDoc_none hm hid]; exact ⟨h1, h2, h3⟩
      | some rid =>
        have hrid : rid ≠ sid := by
          simp only [SafeFor, hm, if_pos, hid] at hop
          simpa using hop
        rw [applyStep_removeDoc hm hid]
        refine ⟨(dget?_dpop_ne (fun he => hrid he.symm)).trans h1,
          (dget?_dpop_ne (fun he => hrid he.symm)).trans h2, ?_⟩
        split
        · intro hmem
          rcases List.mem_append.mp hmem with hmem | hmem
          · exact h3 hmem
          · exact hrid (List.mem_singleton.mp hmem).symm
        · exact h3
    · by_cases hj : j = sid
      · subst hj
        have hkc : m.reprName = k₀ ∧ m.dump = c₀ := by
          simp only [SafeFor, hm, if_neg] at hop
          simpa using hop
        rw [applyStep_model_store hm (by rw [h1]; rfl)]
        refine ⟨?_, h2, h3⟩
        rw [dget?_dinsert_self, hkc.1, hkc.2]
      · have ht : touches (j, Content.model m) sid = false := by
          simp [touches, hm, hj]
        have hu := @applyStep_untouched sm st (j, Content.model m) sid ht
        exact ⟨hu.1.trans h1, hu.2.1.trans h2, fun hmem => h3 (hu.2.2.mp hmem)⟩
  | raw d =>
    by_cases hj : j = sid
    · subst hj
      have hd : d = c₀ := by
        simp only [SafeFor] at hop
        simpa using hop
      rw [applyStep_raw_store h1]
      refine ⟨?_, h2, h3⟩
      rw [dget?_dinsert_self, hd]
    · have ht : touches (j, Content.raw d) sid = false := by
        simp [touches, hj]
      have hu := @applyStep_untouched sm st (j, Content.raw d) sid ht
      exact ⟨hu.1.trans h1, hu.2.1.trans h2, fun hmem => h3 (hu.2.2.mp hmem)⟩

/-- One merge call whose extractor responses are all safe for the record
`(sid, k₀, c₀)` preserves it (and the shape facts around it). -/
theorem applyEnricherOutput_safe {sm : List (Id × SearchItem)} {sid : Id}
    {k₀ c₀ : String} {sb eph existing : List Triple} {resp : List (Id × Content)}
    (hops : ∀ op ∈ resp, SafeFor sid k₀ c₀ op = true)
    (hex : ∀ t ∈ existing, t.1 = sid → t = (sid, k₀, c₀))
    (hnd1 : (sb.map (fun t : Triple => t.1)).Nodup)
    (hmem : (sid, k₀, c₀) ∈ sb)
    (hephs : ∀ t ∈ eph, t.1 ≠ sid) :
    ((applyEnricherOutput (mergeUnreferenced resp existing) sb sm eph).1.map
      (fun t : Triple => t.1)).Nodup ∧
    (sid, k₀, c₀) ∈ (applyEnricherOutput (mergeUnreferenced resp existing) sb sm eph).1 ∧
    (∀ t ∈ (applyEnricherOutput (mergeUnreferenced resp existing) sb sm eph).1,
      t.1 = sid → t = (sid, k₀, c₀)) ∧
    (∀ t ∈ (applyEnricherOutput (mergeUnreferenced resp existing) sb sm eph).2.1,
      t.1 ≠ sid) ∧
    sid ∉ (applyEnricherOutput (mergeUnreferenced resp existing) sb sm eph).2.2 := by
  have hall : ∀ op ∈ mergeUnreferenced resp existing, SafeFor sid k₀ c₀ op = true := by
    obtain ⟨extra, hdecomp, hx⟩ := mergeUnreferenced_decomp resp existing
    rw [hdecomp]
    intro op hop
    rcases List.mem_append.mp hop with hop | hop
    · exact hops op hop
    · obtain ⟨⟨t, ht, rfl⟩, -⟩ := hx op hop
      by_cases hts : t.1 = sid
      · rw [hex t ht hts]
        simp [SafeFor]
      · simp [SafeFor, hts]
  rw [applyEnricherOutput_eq]
  have hD := foldl_induction (applyStep sm)
    (fun st : List (Id × Triple) × List (Id × Triple) × List Id =>
      dget? st.1 sid = some (sid, k₀, c₀) ∧ dget? st.2.1 sid = none ∧
        sid ∉ st.2.2)
    (mergeUnreferenced resp existing) (toDict sb, toDict eph, [])
    ⟨dget?_toDict_of_mem hnd1 hmem, dget?_toDict_eq_none hephs, by simp⟩
    (fun st op hop hst => applyStep_safe (hall op hop) hst.1 hst.2.1 hst.2.2)
  have hN := foldl_induction (applyStep sm)
    (fun st : List (Id × Triple) × List (Id × Triple) × List Id =>
      (dkeys st.1).Nodup ∧ (dkeys st.2.1).Nodup)
    (mergeUnreferenced resp existing) (toDict sb, toDict eph, [])
    ⟨nodup_dkeys_toDict sb, nodup_dkeys_toDict eph⟩
    (fun st op _ hst => applyStep_nodup hst.1 hst.2)
  have hK := @foldl_applyStep_keyed sm
    (mergeUnreferenced resp existing)
    (toDict sb, toDict eph, [])
    (fun p hp => (toDict_mem hp).2) (fun p hp => (toDict_mem hp).2)
  refine ⟨?_, ?_, ?_, ?_, hD.2.2⟩
  · rw [show ((((mergeUnreferenced resp existing).foldl (applyStep sm)
        (toDict sb, toDict eph, [])).1.map Prod.snd).map (fun t : Triple => t.1)) =
        dkeys (((mergeUnreferenced resp existing).foldl (applyStep sm)
          (toDict sb, toDict eph, [])).1) from by
      rw [List.map_map]
      exact List.map_congr_left (fun p hp => hK.1 p hp)]
    exact hN.1
  · exact List.mem_map.mpr ⟨(sid, (sid, k₀, c₀)), dget?_mem hD.1, rfl⟩
  · intro t ht hts
    obtain ⟨p, hp, rfl⟩ := List.mem_map.mp ht
    have hp1 : p.1 = sid := by rw [← hK.1 p hp]; exact hts
    have := mem_dget? hN.1 (show (p.1, p.2) ∈ _ from hp)
    rw [hp1, hD.1] at this
    injection this with hv
    exact hv.symm
  · intro t ht hts
    obtain ⟨p, hp, rfl⟩ := List.mem_map.mp ht
    have hp1 : p.1 = sid := by rw [← hK.2 p hp]; exact hts
    have := mem_dget?_isSome hp
    rw [hp1, hD.2.1] at this
    exact Bool.noConfusion this

theorem putFor_unchanged {sm : List (Id × SearchItem)} {R : List Id}
    {tns : List String} {sid : Id} {item : SearchItem}
    (hnr : sid ∉ R) (hitem : dget? sm sid = some item) :
    putFor sm R tns (sid, item.kind, item.content) = none := by
  unfold putFor
  rw [if_neg hnr]
  rw [show dget? sm ((sid, item.kind, item.content) : Triple).1 = some item
    from hitem]
  simp

/-- C6: a store-backed record that no phase's extractor operations touch
appears unchanged (same id, kind and content) in the final store-backed set,
is never retired, and produces no put — the final puts are computed entirely
from the other records.  The same holds when every operation touching it is a
re-proposal with byte-identical `(kind, content)`. -/
theorem claim6_untouched_record_unchanged (stableId : List String → String → Id)
    (query_limit : Nat) (target_ns : List String)
    (lists : List (List SearchItem)) (p0 : List (Id × Content))
    (prs : List (List (Id × Content))) (r : RunResult)
    (hr : r = ainvokeRun stableId query_limit target_ns lists p0 prs)
    (sid : Id) (item : SearchItem)
    (hitem : dget? r.storeMap sid = some item)
    (h0 : ∀ op ∈ p0, SafeFor sid item.kind item.content op = true)
    (hp : ∀ resp ∈ prs, ∀ op ∈ resp, SafeFor sid item.kind item.content op = true) :
    (sid, item.kind, item.content) ∈ r.storeBased ∧
    sid ∉ r.removedIds ∧
    r.puts = ((r.storeBased ++ r.ephemeral).filter (fun t => t.1 ≠ sid)).filterMap
      (putFor r.storeMap r.removedIds target_ns) := by
  subst hr
  rw [ainvokeRun_storeMap] at hitem
  rw [ainvokeRun_storeBased, ainvokeRun_removedIds, ainvokeRun_puts,
    ainvokeRun_ephemeral, ainvokeRun_storeMap]
  have hndk := nodup_dkeys_sortResults lists query_limit stableId
  have hids : (((sortResults lists query_limit stableId).map
      (fun p => (p.1, p.2.kind, p.2.content))).map (fun t : Triple => t.1)) =
      dkeys (sortResults lists query_limit stableId) := by
    rw [List.map_map]
    rfl
  have hmem0 : (sid, item.kind, item.content) ∈
      (sortResults lists query_limit stableId).map
        (fun p => (p.1, p.2.kind, p.2.content)) :=
    List.mem_map.mpr ⟨(sid, item), dget?_mem hitem, rfl⟩
  have huniq0 : ∀ t ∈ (sortResults lists query_limit stableId).map
      (fun p => (p.1, p.2.kind, p.2.content)),
      t.1 = sid → t = (sid, item.kind, item.content) := by
    intro t ht hts
    obtain ⟨p, hp', rfl⟩ := List.mem_map.mp ht
    have hl : dget? (sortResults lists query_limit stableId) p.1 = some p.2 :=
      mem_dget? hndk (show (p.1, p.2) ∈ _ from hp')
    have hts' : p.1 = sid := hts
    rw [hts', hitem] at hl
    injection hl with hv
    simp only [hts', ← hv]
  have hQ := foldl_induction (phaseFold (sortResults lists query_limit stableId))
    (fun acc : List Triple × List Triple × List Id =>
      (acc.1.map (fun t : Triple => t.1)).Nodup ∧
      (sid, item.kind, item.content) ∈ acc.1 ∧
      (∀ t ∈ acc.1, t.1 = sid → t = (sid, item.kind, item.content)) ∧
      (∀ t ∈ acc.2.1, t.1 ≠ sid) ∧ sid ∉ acc.2.2)
    prs
    ((applyEnricherOutput (mergeUnreferenced p0
        ((sortResults lists query_limit stableId).map
          (fun p => (p.1, p.2.kind, p.2.content))))
      ((sortResults lists query_limit stableId).map
        (fun p => (p.1, p.2.kind, p.2.content)))
      (sortResults lists query_limit stableId) []).1,
     (applyEnricherOutput (mergeUnreferenced p0
        ((sortResults lists query_limit stableId).map
          (fun p => (p.1, p.2.kind, p.2.content))))
      ((sortResults lists query_limit stableId).map
        (fun p => (p.1, p.2.kind, p.2.content)))
      (sortResults lists query_limit stableId) []).2.1,
     sunion [] (applyEnricherOutput (mergeUnreferenced p0
        ((sortResults lists query_limit stableId).map
          (fun p => (p.1, p.2.kind, p.2.content))))
      ((sortResults lists query_limit stableId).map
        (fun p => (p.1, p.2.kind, p.2.content)))
      (sortResults lists query_limit stableId) []).2.2)
    (by
      have hsafe := @applyEnricherOutput_safe
        (sortResults lists query_limit stableId) sid item.kind item.content _ [] _ p0
        h0 huniq0 (by rw [hids]; exact hndk) hmem0 (by simp)
      refine ⟨hsafe.1, hsafe.2.1, hsafe.2.2.1, hsafe.2.2.2.1, ?_⟩
      intro hmem
      rcases mem_sunion.mp hmem with hmem | hmem
      · simp at hmem
      · exact hsafe.2.2.2.2 hmem)
    (by
      intro acc resp hresp hacc
      have hex : ∀ t ∈ acc.1 ++ acc.2.1, t.1 = sid →
          t = (sid, item.kind, item.content) := by
        intro t ht hts
        rcases List.mem_append.mp ht with ht | ht
        · exact hacc.2.2.1 t ht hts
        · exact absurd hts (hacc.2.2.2.1 t ht)
      have hsafe := @applyEnricherOutput_safe
        (sortResults lists query_limit stableId) sid item.kind item.content _ _ _ resp
        (hp resp hresp) hex hacc.1 hacc.2.1 hacc.2.2.2.1
      rw [phaseFold_eq]
      refine ⟨hsafe.1, hsafe.2.1, hsafe.2.2.1, hsafe.2.2.2.1, ?_⟩
      intro hmem
      rcases mem_sunion.mp hmem with hmem | hmem
      · exact hacc.2.2.2.2 hmem
      · exact hsafe.2.2.2.2 hmem)
  rw [show runFinalState stableId query_limit lists p0 prs =
      prs.foldl (phaseFold (sortResults lists query_limit stableId)) _ from rfl]
  refine ⟨hQ.2.1, hQ.2.2.2.2, ?_⟩
  rw [computePuts_eq_filterMap]
  apply filterMap_filter_eq
  intro t ht hfalse
  have hts : t.1 = sid := by simpa using hfalse
  rcases List.mem_append.mp ht with ht | ht
  · rw [hQ.2.2.1 t ht hts]
    exact putFor_unchanged hQ.2.2.2.2 hitem
  · exact absurd hts (hQ.2.2.2.1 t ht)

/-- Witness for `claim6_untouched_record_unchanged`: a store-backed record
re-proposed with byte-identical `(kind, content)` survives unchanged and
produces no put. -/
theorem claim6_untouched_record_unchanged_witness :
    ("m/ka", "Memory", "a") ∈
      (ainvokeRun (fun ns k => String.intercalate "/" ns ++ "/" ++ k) 5 ["m", "u"]
        [[⟨["m"], "ka", "Memory", "a", none⟩]]
        [("m/ka", Content.model ⟨"Memory", none, "a"⟩)] []).storeBased ∧
    "m/ka" ∉
      (ainvokeRun (fun ns k => String.intercalate "/" ns ++ "/" ++ k) 5 ["m", "u"]
        [[⟨["m"], "ka", "Memory", "a", none⟩]]
        [("m/ka", Content.model ⟨"Memory", none, "a"⟩)] []).removedIds ∧
    (ainvokeRun (fun ns k => String.intercalate "/" ns ++ "/" ++ k) 5 ["m", "u"]
        [[⟨["m"], "ka", "Memory", "a", none⟩]]
        [("m/ka", Content.model ⟨"Memory", none, "a"⟩)] []).puts =
      (((ainvokeRun (fun ns k => String.intercalate "/" ns ++ "/" ++ k) 5 ["m", "u"]
          [[⟨["m"], "ka", "Memory", "a", none⟩]]
          [("m/ka", Content.model ⟨"Memory", none, "a"⟩)] []).storeBased ++
        (ainvokeRun (fun ns k => String.intercalate "/" ns ++ "/" ++ k) 5 ["m", "u"]
          [[⟨["m"], "ka", "Memory", "a", none⟩]]
          [("m/ka", Content.model ⟨"Memory", none, "a"⟩)] []).ephemeral).filter
        (fun t => t.1 ≠ "m/ka")).filterMap
        (putFor (ainvokeRun (fun ns k => String.intercalate "/" ns ++ "/" ++ k) 5
            ["m", "u"] [[⟨["m"], "ka", "Memory", "a", none⟩]]
            [("m/ka", Content.model ⟨"Memory", none, "a"⟩)] []).storeMap
          (ainvokeRun (fun ns k => String.intercalate "/" ns ++ "/" ++ k) 5
            ["m", "u"] [[⟨["m"], "ka", "Memory", "a", none⟩]]
            [("m/ka", Content.model ⟨"Memory", none, "a"⟩)] []).removedIds
          ["m", "u"]) :=
  claim6_untouched_record_unchanged
    (fun ns k => String.intercalate "/" ns ++ "/" ++ k) 5 ["m", "u"]
    [[⟨["m"], "ka", "Memory", "a", none⟩]]
    [("m/ka", Content.model ⟨"Memory", none, "a"⟩)] [] _ rfl
    "m/ka" ⟨["m"], "ka", "Memory", "a", none⟩ (by decide) (by decide) (by decide)

/-! ### C10: string memories get fresh uuid4 ids -/

/-- C10: when `existing` is a list of plain strings, every string is wrapped
in the first configured schema and paired with a freshly drawn id from the
uuid4 supply; the ids are exactly the supply values at the list positions —
independent of the strings' contents — so the same string receives a
different id on every call whose supply is disjoint, and is never recognized
as the same record across calls. -/
theorem claim10_string_memories_fresh_ids :
    (∀ (fresh : Nat → Id) (schemaName : String) (existing : List String),
      (prepareExistingStrings fresh schemaName existing).map (fun e => e.1) =
        (List.range existing.length).map fresh ∧
      (∀ e ∈ prepareExistingStrings fresh schemaName existing,
        e.2.1 = "Memory" ∧
          ∃ s ∈ existing, e.2.2 = Content.model ⟨schemaName, none, s⟩)) ∧
    (∀ (fresh : Nat → Id) (schemaName : String) (l l' : List String),
      l.length = l'.length →
      (prepareExistingStrings fresh schemaName l).map (fun e => e.1) =
        (prepareExistingStrings fresh schemaName l').map (fun e => e.1)) ∧
    (∀ (f g : Nat → Id) (schemaName : String) (l : List String),
      (∀ i, i < l.length → ∀ j, j < l.length → f i ≠ g j) →
      ∀ e ∈ prepareExistingStrings f schemaName l,
        ∀ e' ∈ prepareExistingStrings g schemaName l, e.1 ≠ e'.1) := by
  have hids : ∀ (fresh : Nat → Id) (schemaName : String) (existing : List String),
      (prepareExistingStrings fresh schemaName existing).map (fun e => e.1) =
        (List.range existing.length).map fresh := by
    intro fresh schemaName existing
    rw [prepareExistingStrings, List.map_map]
    rw [show ((fun e : Id × String × Content => e.1) ∘
        (fun p : Nat × String =>
          (fresh p.1, "Memory", Content.model ⟨schemaName, none, p.2⟩))) =
        (fun p : Nat × String => fresh p.1) from rfl]
    rw [show (fun p : Nat × String => fresh p.1) =
        fresh ∘ Prod.fst from rfl, ← List.map_map]
    rw [List.map_fst_zip _ _ (by rw [List.length_range])]
  refine ⟨fun fresh schemaName existing => ⟨hids fresh schemaName existing, ?_⟩,
    fun fresh schemaName l l' hlen => ?_, fun f g schemaName l hfg e he e' he' => ?_⟩
  · intro e he
    rw [prepareExistingStrings] at he
    obtain ⟨p, hp, rfl⟩ := List.mem_map.mp he
    exact ⟨rfl, p.2, (List.of_mem_zip hp).2, rfl⟩
  · rw [hids, hids, hlen]
  · rw [prepareExistingStrings] at he he'
    obtain ⟨p, hp, rfl⟩ := List.mem_map.mp he
    obtain ⟨q, hq, rfl⟩ := List.mem_map.mp he'
    have hpi : p.1 < l.length := by
      have := (List.of_mem_zip hp).1
      rwa [List.mem_range] at this
    have hqi : q.1 < l.length := by
      have := (List.of_mem_zip hq).1
      rwa [List.mem_range] at this
    exact hfg p.1 hpi q.1 hqi

/-- Witness for `claim10_string_memories_fresh_ids`: ids depend only on the
supply, and disjoint supplies give different ids to the same string. -/
theorem claim10_string_memories_fresh_ids_witness :
    (prepareExistingStrings (fun i => "a" ++ toString i) "Memory"
        ["hello"]).map (fun e => e.1) =
      (prepareExistingStrings (fun i => "a" ++ toString i) "Memory"
        ["world"]).map (fun e => e.1) ∧
    (("a0", ("Memory" : String),
        Content.model ⟨"Memory", none, "hello"⟩) : Id × String × Content).1 ≠
      (("b0", ("Memory" : String),
        Content.model ⟨"Memory", none, "hello"⟩) : Id × String × Content).1 := by
  constructor
  · exact claim10_string_memories_fresh_ids.2.1 (fun i => "a" ++ toString i)
      "Memory" ["hello"] ["world"] rfl
  · refine claim10_string_memories_fresh_ids.2.2 (fun i => "a" ++ toString i)
      (fun i => "b" ++ toString i) "Memory" ["hello"] ?_ _ ?_ _ ?_
    · intro i hi j hj
      rw [show (["hello"] : List String).length = 1 from rfl] at hi hj
      have hi0 : i = 0 := by omega
      have hj0 : j = 0 := by omega
      subst hi0
      subst hj0
      decide
    · decide
    · decide
